import Mathlib

/-!
# Verification of the phased operation-graph construction

Shallow embedding of `src/libraries/rush-lib/src/logic/operations/PhasedOperationPlugin.ts`
(the operation-graph construction stage of the build orchestrator).

Modelling choices:
* Operations live in an arena (`BuildState.ops : List Op`) and are addressed by
  their index (`Nat`), mirroring the object graph of mutable `Operation` objects.
* External data (phases, projects, per-project configuration) is a read-only
  `Repo` record; phases and projects are addressed by index.
* The recursive builder `getOrCreateOperations` is fuel-indexed: the TypeScript
  original does not terminate on cyclic phase data, and the embedding returns
  `none` when the fuel (a bound on the recursion depth) is exhausted.
* JavaScript `Set` insertion (`add`) is insert-if-absent preserving insertion
  order; `Map.set` replaces an existing binding in place or appends a new one.
-/

/-- `OperationStatus`: the terminal outcomes this core produces or consumes.
The real enum has further members, all opaque to this code. -/
inductive OperationStatus where
  | Success : OperationStatus
  | Skipped : OperationStatus
deriving DecidableEq, Repr

/-- The observable configuration of an execution strategy
(`IOperationRunner`): display name, flags, the string `getConfigHash`
returns, and the fixed terminal outcome its `executeAsync` yields. -/
structure IOperationRunner where
  name : String
  cacheable : Bool
  reportTiming : Bool
  warningsAreAllowed : Bool
  silent : Bool
  configHash : String
  result : OperationStatus
deriving DecidableEq, Repr

/-- Modelled from the spec: the skip strategy (`NullOperationRunner`, not under
src/): configuration {display name, fixed outcome, silence flag}; its step
immediately yields the fixed outcome, it is not cacheable, and its hash is a
placeholder. -/
def nullOperationRunner (name : String) (result : OperationStatus) (silent : Bool) :
    IOperationRunner :=
  { name := name
    cacheable := false
    reportTiming := false
    warningsAreAllowed := false
    silent := silent
    configHash := ""
    result := result }

/-- The `buildCacheRestore` runner created in the sharded branch
(PhasedOperationPlugin.ts lines 96-108): `sharedConfig` plus name, a
placeholder hash, and a step yielding `Success`. -/
def buildCacheRestoreRunner : IOperationRunner :=
  { name := "buildCacheRestore"
    cacheable := true
    reportTiming := false
    warningsAreAllowed := false
    silent := true
    configHash := ""
    result := OperationStatus.Success }

/-- The `buildCacheSave` runner created in the sharded branch
(PhasedOperationPlugin.ts lines 110-119). -/
def buildCacheSaveRunner : IOperationRunner :=
  { name := "buildCacheSave"
    cacheable := true
    reportTiming := false
    warningsAreAllowed := false
    silent := true
    configHash := ""
    result := OperationStatus.Success }

/-- External phase model (`IPhase`): a name and the two dependency sets,
`dependencies.self` and `dependencies.upstream`, as indices into
`Repo.phases`. -/
structure IPhase where
  name : String
  selfDeps : List Nat
  upstreamDeps : List Nat
deriving DecidableEq, Repr

/-- External project model (`RushConfigurationProject`): a package name and the
directly-depended-on projects (`dependencyProjects`), as indices into
`Repo.projects`. -/
structure RushProject where
  packageName : String
  dependencyProjects : List Nat
deriving DecidableEq, Repr

/-- Per-operation settings from the project configuration
(`IOperationSettings`): we model the optional `shards` count. -/
structure OperationSettings where
  shards : Option Nat
deriving DecidableEq, Repr

/-- The read-only external world: phases, projects, and per-project
configuration. `projectConfigurations` models
`RushProjectConfiguration.tryLoadForProjectAsync`: `none` when no
configuration loads for the project, otherwise the
`operationSettingsByOperationName` map as an association list keyed by
operation (phase) name. -/
structure Repo where
  phases : List IPhase
  projects : List RushProject
  projectConfigurations : List (Option (List (String × OperationSettings)))
deriving DecidableEq, Repr

/-- Phase lookup by index (out-of-range indices yield an inert phase). -/
def Repo.phase (repo : Repo) (p : Nat) : IPhase :=
  repo.phases.getD p { name := "", selfDeps := [], upstreamDeps := [] }

/-- Project lookup by index. -/
def Repo.project (repo : Repo) (q : Nat) : RushProject :=
  repo.projects.getD q { packageName := "", dependencyProjects := [] }

/-- Configuration lookup by project index. -/
def Repo.projectConfiguration (repo : Repo) (q : Nat) :
    Option (List (String × OperationSettings)) :=
  repo.projectConfigurations.getD q none

/-- The relevant fields of `ICreateOperationsContext` destructured at
PhasedOperationPlugin.ts lines 35-41: `projectsInUnknownState` (here
`changedProjects`), `phaseOriginal`, `phaseSelection`, `projectSelection`.
Sets are lists of indices. -/
structure CreateContext where
  changedProjects : List Nat
  phaseOriginal : List Nat
  phaseSelection : List Nat
  projectSelection : List Nat
deriving DecidableEq, Repr

/-- An `Operation` (graph node): project × phase × optional shard descriptor
{current, max}, plus the mutable runner slot and the mutable dependency and
consumer sets (arena indices). -/
structure Op where
  project : Nat
  phase : Nat
  shard : Option (Nat × Nat)
  runner : Option IOperationRunner
  dependencies : List Nat
  consumers : List Nat
deriving DecidableEq, Repr

instance : Inhabited Op :=
  ⟨{ project := 0, phase := 0, shard := none, runner := none,
     dependencies := [], consumers := [] }⟩

/-- The mutable state threaded through one construction pass: the arena of
Operation objects, the `allOperations` memo map (key → list of arena
indices), the `operationsWithWork` set and the `existingOperations` set
(both in insertion order). -/
structure BuildState where
  ops : List Op
  allOperations : List (String × List Nat)
  operationsWithWork : List Nat
  existingOperations : List Nat
deriving DecidableEq, Repr

/-- JavaScript `Set.add`: append if absent, keep insertion order. -/
def insertIfAbsent (l : List Nat) (x : Nat) : List Nat :=
  if x ∈ l then l else l ++ [x]

/-- Replace the element at an index, leaving other elements (and the length)
unchanged; no-op when out of range. -/
def modifyNth (f : Op → Op) : Nat → List Op → List Op
  | _, [] => []
  | 0, a :: l => f a :: l
  | n + 1, a :: l => a :: modifyNth f n l

/-- Association-list lookup for the memo map (`Map.get`). -/
def memoLookup : List (String × List Nat) → String → Option (List Nat)
  | [], _ => none
  | (k', v') :: rest, k => if k' = k then some v' else memoLookup rest k

/-- Association-list update for the memo map (`Map.set`): replace in place if
the key is bound, else append. -/
def memoSet : List (String × List Nat) → String → List Nat → List (String × List Nat)
  | [], k, v => [(k, v)]
  | (k', v') :: rest, k, v =>
      if k' = k then (k, v) :: rest else (k', v') :: memoSet rest k v

/-- Association-list lookup for `operationSettingsByOperationName`. -/
def settingsLookup : List (String × OperationSettings) → String → Option OperationSettings
  | [], _ => none
  | (k', v') :: rest, k => if k' = k then some v' else settingsLookup rest k

/-- Read the operation at an arena index. -/
def opAt (st : BuildState) (i : Nat) : Op :=
  st.ops.getD i default

/-- `new Operation({project, phase, shard?})`: append a fresh node with empty
dependency and consumer sets and no runner; return its index. -/
def newOperation (st : BuildState) (projId phaseId : Nat) (shard : Option (Nat × Nat)) :
    Nat × BuildState :=
  (st.ops.length,
   { st with
     ops := st.ops ++ [{ project := projId, phase := phaseId, shard := shard,
                         runner := none, dependencies := [], consumers := [] }] })

/-- `operation.runner = r`. -/
def setRunner (st : BuildState) (i : Nat) (r : IOperationRunner) : BuildState :=
  { st with ops := modifyNth (fun o => { o with runner := some r }) i st.ops }

/-- Modelled from the spec: `Operation.addDependency(other)` (the `Operation`
class is not under src/): an idempotent union insert of `b` into `a`'s
dependency set and of `a` into `b`'s consumer set — symmetric bookkeeping
with no other writer of the consumer set. -/
def addDependency (st : BuildState) (a b : Nat) : BuildState :=
  let st1 : BuildState :=
    { st with ops := modifyNth (fun o =>
        { o with dependencies := insertIfAbsent o.dependencies b }) a st.ops }
  { st1 with ops := modifyNth (fun o =>
      { o with consumers := insertIfAbsent o.consumers a }) b st1.ops }

/-- `operationsWithWork.add(i)`. -/
def addWork (st : BuildState) (i : Nat) : BuildState :=
  { st with operationsWithWork := insertIfAbsent st.operationsWithWork i }

/-- `existingOperations.add(i)`. -/
def addExisting (st : BuildState) (i : Nat) : BuildState :=
  { st with existingOperations := insertIfAbsent st.existingOperations i }

/-- `list.forEach((op) => target.addDependency(op))`. -/
def addDependencyList (st : BuildState) (target : Nat) (l : List Nat) : BuildState :=
  l.foldl (fun s o => addDependency s target o) st

/-- `getOperationKey(phase, project)` (PhasedOperationPlugin.ts lines 231-233):
the string `` `${project.packageName};${phase.name}` ``. -/
def getOperationKey (phase : IPhase) (project : RushProject) : String :=
  project.packageName ++ ";" ++ phase.name

/-- The memo key of a (phase, project) index pair. -/
def keyOf (repo : Repo) (phaseId projId : Nat) : String :=
  getOperationKey (repo.phase phaseId) (repo.project projId)

/-- `getShards(phase, project, terminal)` (PhasedOperationPlugin.ts lines
219-228): load the project configuration; if present, look up the settings
entry for the phase's name and return its optional `shards`; otherwise
`undefined`. -/
def getShards (repo : Repo) (phaseId projId : Nat) : Option Nat :=
  match repo.projectConfiguration projId with
  | none => none
  | some settingsMap =>
      (settingsLookup settingsMap (repo.phase phaseId).name).bind
        (fun s => s.shards)

/-- The branch condition `shards && shards > 1` at line 87 (an `undefined` or
falsy count, including 0, takes the unsharded branch). -/
def isSharded (shards : Option Nat) : Bool :=
  match shards with
  | none => false
  | some s => decide (s > 1)

/-- The self-dependency recursion targets: `(depPhase, project)` for every
`depPhase` of `phase.dependencies.self` (lines 133-139 / 196-198). -/
def selfPairs (repo : Repo) (phaseId projId : Nat) : List (Nat × Nat) :=
  (repo.phase phaseId).selfDeps.map (fun dp => (dp, projId))

/-- The upstream recursion targets: `(depPhase, dependencyProject)` for every
`depPhase` of `phase.dependencies.upstream` and every `dependencyProject` of
`project.dependencyProjects` (lines 141-154 / 200-211); the `size` guards in
the source only skip an empty product. -/
def upstreamPairs (repo : Repo) (phaseId projId : Nat) : List (Nat × Nat) :=
  (repo.phase phaseId).upstreamDeps.flatMap
    (fun dp => (repo.project projId).dependencyProjects.map (fun dq => (dp, dq)))

/-- One wiring loop: for each `(p, q)` pair, resolve it through `recur` and add
a dependency edge from `target` to every operation of the resolved list. -/
def wireDeps (recur : Nat → Nat → BuildState → Option (List Nat × BuildState)) :
    List (Nat × Nat) → Nat → BuildState → Option BuildState
  | [], _, st => some st
  | (p, q) :: rest, target, st =>
      match recur p q st with
      | none => none
      | some (l, st') => wireDeps recur rest target (addDependencyList st' target l)

/-- The shard-creation loop (lines 156-170), creating the shards numbered
`total - k + 1` through `total` in ascending order: each shard operation gets
a `{current, max}` descriptor, depends on the restore node `r`, becomes a
dependency of the save node `sv`, and joins `operationsWithWork` and
`existingOperations`; the created indices are returned in order. -/
def createShards (projId phaseId total r sv : Nat) :
    Nat → BuildState → List Nat × BuildState
  | 0, st => ([], st)
  | k + 1, st =>
      let current := total - k
      let i := st.ops.length
      let st1 := (newOperation st projId phaseId (some (current, total))).2
      let st2 := addDependency st1 i r
      let st3 := addDependency st2 sv i
      let st4 := addWork st3 i
      let st5 := addExisting st4 i
      let res := createShards projId phaseId total r sv k st5
      (i :: res.1, res.2)

/-- The unsharded branch of `getOrCreateOperations` (lines 172-212): create the
single operation, attach the skip runner when the pair is out of the requested
scope, otherwise register it as having work when the project possibly changed;
memoize `[operation]`, add it to the operation set, then wire the self and
upstream dependency edges onto it. -/
def unshardedExpand (recur : Nat → Nat → BuildState → Option (List Nat × BuildState))
    (repo : Repo) (ctx : CreateContext) (phaseId projId : Nat) (key : String)
    (st : BuildState) : Option (List Nat × BuildState) :=
  let i := st.ops.length
  let st1 := (newOperation st projId phaseId none).2
  let st2 :=
    if phaseId ∉ ctx.phaseSelection ∨ projId ∉ ctx.projectSelection then
      -- Not in scope. Mark skipped because state is unknown. (lines 178-184)
      setRunner st1 i (nullOperationRunner key OperationStatus.Skipped true)
    else if projId ∈ ctx.changedProjects then
      addWork st1 i
    else
      st1
  let st4 := addExisting { st2 with allOperations := memoSet st2.allOperations key [i] } i
  match wireDeps recur (selfPairs repo phaseId projId) i st4 with
  | none => none
  | some st5 =>
      match wireDeps recur (upstreamPairs repo phaseId projId) i st5 with
      | none => none
      | some st6 => some ([i], st6)

/-- The sharded branch of `getOrCreateOperations` (lines 87-171): create the
restore and save boundary operations with their cache runners (the
`dependencies` and `dependents` arrays hold exactly the restore and the save
node respectively), register both as having work and add both to the operation
set; wire self-dependency edges onto the restore node and upstream edges onto
the save node; create the shard operations; finally memoize
`[restore, save, shard_1, ..., shard_N]`. -/
def shardedExpand (recur : Nat → Nat → BuildState → Option (List Nat × BuildState))
    (repo : Repo) (phaseId projId : Nat) (key : String) (shards : Nat)
    (st : BuildState) : Option (List Nat × BuildState) :=
  let r := st.ops.length
  let st2 := setRunner (newOperation st projId phaseId none).2 r buildCacheRestoreRunner
  let sv := st2.ops.length
  let st4 := setRunner (newOperation st2 projId phaseId none).2 sv buildCacheSaveRunner
  let st5 := addWork st4 r
  let st6 := addWork st5 sv
  let st7 := addExisting st6 sv
  let st8 := addExisting st7 r
  match wireDeps recur (selfPairs repo phaseId projId) r st8 with
  | none => none
  | some st9 =>
      match wireDeps recur (upstreamPairs repo phaseId projId) sv st9 with
      | none => none
      | some st10 =>
          let res := createShards projId phaseId shards r sv shards st10
          let ops := r :: sv :: res.1
          let st12 := { res.2 with allOperations := memoSet res.2.allOperations key ops }
          some (ops, st12)

/-- `getOrCreateOperations(phase, project)` (lines 77-216), fuel-indexed: a
memo hit returns the cached list unchanged; otherwise the external shard count
decides between the sharded and the unsharded expansion. -/
def getOrCreateOperations (repo : Repo) (ctx : CreateContext) :
    Nat → Nat → Nat → BuildState → Option (List Nat × BuildState)
  | 0, _, _, _ => none
  | fuel + 1, phaseId, projId, st =>
      let key := keyOf repo phaseId projId
      match memoLookup st.allOperations key with
      | some ops => some (ops, st)
      | none =>
          match getShards repo phaseId projId with
          | some s =>
              if s > 1 then
                shardedExpand (getOrCreateOperations repo ctx fuel) repo
                  phaseId projId key s st
              else
                unshardedExpand (getOrCreateOperations repo ctx fuel) repo ctx
                  phaseId projId key st
          | none =>
              unshardedExpand (getOrCreateOperations repo ctx fuel) repo ctx
                phaseId projId key st

/-- The top-level creation loop (lines 47-51): resolve every
(phase, project) pair of `phaseOriginal × projectSelection` in order. -/
def runPairs (recur : Nat → Nat → BuildState → Option (List Nat × BuildState)) :
    List (Nat × Nat) → BuildState → Option BuildState
  | [], st => some st
  | (p, q) :: rest, st =>
      match recur p q st with
      | none => none
      | some (_, st') => runPairs recur rest st'

/-- The consumer list of an arena index (empty when out of range). -/
def consumersOf (ops : List Op) (i : Nat) : List Nat :=
  (ops.getD i default).consumers

/-- `Set.add` of each consumer during set iteration: consumers absent from the
set are appended to both the pending queue and the set, in order. -/
def enqueue : List Nat → List Nat → List Nat → List Nat × List Nat
  | [], queue, acc => (queue, acc)
  | j :: js, queue, acc =>
      if j ∈ acc then enqueue js queue acc
      else enqueue js (queue ++ [j]) (acc ++ [j])

/-- The dirty-propagation loop (lines 53-58): iterate the
`operationsWithWork` set (a JavaScript `for...of` over a `Set` also visits
elements inserted during the iteration), adding every consumer of every
visited element; `queue` is the yet-unvisited tail of the set `acc`. -/
def propagateAux (ops : List Op) : Nat → List Nat → List Nat → List Nat
  | 0, _, acc => acc
  | _ + 1, [], acc => acc
  | fuel + 1, i :: queue, acc =>
      let qa := enqueue (consumersOf ops i) queue acc
      propagateAux ops fuel qa.1 qa.2

/-- Forward dirty propagation over the consumer relation, with fuel large
enough for any well-formed state (see the closure theorem). -/
def propagate (ops : List Op) (init : List Nat) : List Nat :=
  propagateAux ops (init.length + 2 * ops.length + 1) init init

/-- One finalization entry (lines 60-72): for every operation of the memo
entry `(key, l)` that is absent from the work-tracking set, attach
`new NullOperationRunner({name: key, result: Skipped, silent: true})`. -/
def finalizeEntry (work : List Nat) (key : String) (l : List Nat)
    (ops : List Op) : List Op :=
  l.foldl
    (fun acc i =>
      if i ∈ work then acc
      else modifyNth
        (fun o => { o with
          runner := some (nullOperationRunner key OperationStatus.Skipped true) })
        i acc)
    ops

/-- The finalization loop over all memo entries, in insertion order. -/
def finalizeOps (work : List Nat) (entries : List (String × List Nat))
    (ops : List Op) : List Op :=
  entries.foldl (fun acc kv => finalizeEntry work kv.1 kv.2 acc) ops

/-- `createOperations(existingOperations, context)` (lines 31-74): run the
builder over every requested (phase, project) pair, propagate the
work-tracking set forward over consumer edges, then attach the skip runner to
every created operation left without work. The TypeScript function returns the
`existingOperations` set; the final `BuildState` carries that set together
with the operation objects it contains. `none` models non-termination on
cyclic phase data (fuel exhaustion). -/
def createOperations (repo : Repo) (ctx : CreateContext) (fuel : Nat)
    (initialOps : List Op) (initialExisting : List Nat) : Option BuildState :=
  let st0 : BuildState :=
    { ops := initialOps, allOperations := [], operationsWithWork := [],
      existingOperations := initialExisting }
  let pairs := ctx.phaseOriginal.flatMap
    (fun p => ctx.projectSelection.map (fun q => (p, q)))
  match runPairs (getOrCreateOperations repo ctx fuel) pairs st0 with
  | none => none
  | some st =>
      let work := propagate st.ops st.operationsWithWork
      some { st with
        ops := finalizeOps work st.allOperations st.ops,
        operationsWithWork := work }

/-! ## Derived observations on a build state -/

/-- The identity-and-runner part of an operation (everything except the
mutable edge sets). -/
def opCore (o : Op) : Nat × Nat × Option (Nat × Nat) × Option IOperationRunner :=
  (o.project, o.phase, o.shard, o.runner)

/-- The dependency set of the operation at an index. -/
def depsOf (st : BuildState) (i : Nat) : List Nat :=
  (opAt st i).dependencies

/-- The consumer set of the operation at an index. -/
def consOf (st : BuildState) (i : Nat) : List Nat :=
  (opAt st i).consumers

/-- The runner slot of the operation at an index. -/
def runnerOf (st : BuildState) (i : Nat) : Option IOperationRunner :=
  (opAt st i).runner

/-! ## Specification-side predicates and relations -/

/-- What one (possibly compound) construction step guarantees relative to a
starting state: the arena only grows and existing operations keep their
identity and runner; memo entries persist unchanged; every new memo entry
holds only operations created after the start; the work-tracking and
operation sets only grow. -/
structure StepOK (st st' : BuildState) : Prop where
  opsLen : st.ops.length ≤ st'.ops.length
  opsCore : ∀ i, i < st.ops.length → opCore (opAt st' i) = opCore (opAt st i)
  memoOld : ∀ k l, memoLookup st.allOperations k = some l →
    memoLookup st'.allOperations k = some l
  memoFresh : ∀ k l, memoLookup st'.allOperations k = some l →
    memoLookup st.allOperations k = some l ∨ ∀ x ∈ l, st.ops.length ≤ x
  workMono : ∀ x ∈ st.operationsWithWork, x ∈ st'.operationsWithWork
  existMono : ∀ x ∈ st.existingOperations, x ∈ st'.existingOperations


/-- Well-formedness of the builder state: memo keys are unambiguous, every
memoized operation index is a valid arena index, and the memo lists of
distinct keys are pairwise disjoint (each Operation belongs to the key that
created it). -/
structure StateWF (st : BuildState) : Prop where
  nodupKeys : (st.allOperations.map Prod.fst).Nodup
  memoBound : ∀ k l, memoLookup st.allOperations k = some l → ∀ x ∈ l, x < st.ops.length
  memoDisj : ∀ k k' l l', k ≠ k' → memoLookup st.allOperations k = some l →
    memoLookup st.allOperations k' = some l' → ∀ x ∈ l, x ∉ l'

/-- Every memoized operation has been added to the shared operation set. -/
def ListedExisting (st : BuildState) : Prop :=
  ∀ k l, memoLookup st.allOperations k = some l → ∀ x ∈ l, x ∈ st.existingOperations

/-- Well-formedness of the external inputs: distinct (phase, project) index
pairs have distinct memo keys (package and phase names are unambiguous), and
all dependency references stay in range. -/
structure GoodInputs (repo : Repo) (ctx : CreateContext) : Prop where
  keyInj : ∀ p, p < repo.phases.length → ∀ p', p' < repo.phases.length →
    ∀ q, q < repo.projects.length → ∀ q', q' < repo.projects.length →
    keyOf repo p q = keyOf repo p' q' → p = p' ∧ q = q'
  phasesWF : ∀ p, p < repo.phases.length →
    (∀ d ∈ (repo.phase p).selfDeps, d < repo.phases.length) ∧
    (∀ d ∈ (repo.phase p).upstreamDeps, d < repo.phases.length)
  projectsWF : ∀ q, q < repo.projects.length →
    ∀ d ∈ (repo.project q).dependencyProjects, d < repo.projects.length

/-- The runner discipline for memoized out-of-scope unsharded pairs: their
single operation carries the skip runner (fixed result `Skipped`) from the
moment of its creation. -/
def EntryInv (repo : Repo) (ctx : CreateContext) (st : BuildState) : Prop :=
  ∀ p q, p < repo.phases.length → q < repo.projects.length →
    isSharded (getShards repo p q) = false →
    (p ∉ ctx.phaseSelection ∨ q ∉ ctx.projectSelection) →
    ∀ l, memoLookup st.allOperations (keyOf repo p q) = some l →
      ∃ i, l = [i] ∧ i < st.ops.length ∧
        runnerOf st i =
          some (nullOperationRunner (keyOf repo p q) OperationStatus.Skipped true)


/-- The contract satisfied by `getOrCreateOperations` at every fuel level. -/
def ResolveSpec (repo : Repo) (ctx : CreateContext)
    (resolver : Nat → Nat → BuildState → Option (List Nat × BuildState)) : Prop :=
  ∀ p q st l st', resolver p q st = some (l, st') →
    StepOK st st' ∧
    memoLookup st'.allOperations (keyOf repo p q) = some l ∧
    (∀ i, i < st.ops.length → depsOf st' i = depsOf st i) ∧
    (StateWF st → StateWF st') ∧
    (ListedExisting st → ListedExisting st') ∧
    (GoodInputs repo ctx → p < repo.phases.length → q < repo.projects.length →
      StateWF st → EntryInv repo ctx st → EntryInv repo ctx st')


/-- A runner slot holding a skip strategy: some `NullOperationRunner` with
fixed result `Skipped` and silence enabled. -/
def IsSkipRunner (o : Option IOperationRunner) : Prop :=
  ∃ nm, o = some (nullOperationRunner nm OperationStatus.Skipped true)


/-- The consumer-edge relation of the operation graph: `j` consumes `i`. -/
def consEdge (ops : List Op) (i j : Nat) : Prop :=
  j ∈ consumersOf ops i

/-- How many valid arena indices are still missing from the set. -/
def missingCount (ops : List Op) (acc : List Nat) : Nat :=
  (Finset.range ops.length \ acc.toFinset).card

/-! ## Concrete instances used as witnesses and counterexamples -/

/-- The empty starting state of a construction pass. -/
def emptyState : BuildState :=
  { ops := [], allOperations := [], operationsWithWork := [], existingOperations := [] }

/-- A two-operation state for exercising edge bookkeeping. -/
def twoOpState : BuildState :=
  { ops := [default, default], allOperations := [], operationsWithWork := [],
    existingOperations := [] }

/-- One phase, one project, no project configuration. -/
def soloRepo : Repo :=
  { phases := [{ name := "build", selfDeps := [], upstreamDeps := [] }]
    projects := [{ packageName := "a", dependencyProjects := [] }]
    projectConfigurations := [none] }

/-- Everything requested and in scope; the project possibly changed. -/
def soloCtx : CreateContext :=
  { changedProjects := [0], phaseOriginal := [0], phaseSelection := [0],
    projectSelection := [0] }

/-- The full pass over `soloRepo`. -/
def soloResult : BuildState :=
  (createOperations soloRepo soloCtx 5 [] []).getD emptyState

/-- One resolution over `soloRepo`. -/
def soloResolve : List Nat × BuildState :=
  (getOrCreateOperations soloRepo soloCtx 5 0 0 emptyState).getD ([], emptyState)

/-- The same repository but with a shard count of 2 for the phase. -/
def shardedRepo : Repo :=
  { phases := [{ name := "build", selfDeps := [], upstreamDeps := [] }]
    projects := [{ packageName := "a", dependencyProjects := [] }]
    projectConfigurations := [some [("build", { shards := some 2 })]] }

/-- The phase is requested but not in the phase selection (out of scope), and
the project is marked as possibly changed. -/
def outOfScopeCtx : CreateContext :=
  { changedProjects := [0], phaseOriginal := [0], phaseSelection := [],
    projectSelection := [0] }

/-- The full pass over `shardedRepo` with the out-of-scope context. -/
def shardedResult : BuildState :=
  (createOperations shardedRepo outOfScopeCtx 5 [] []).getD emptyState

/-- One resolution over `shardedRepo`. -/
def shardResolve : List Nat × BuildState :=
  (getOrCreateOperations shardedRepo outOfScopeCtx 5 0 0 emptyState).getD ([], emptyState)

/-- Two phases for one project: phase 1 self-depends on phase 0; phase 1 is
requested but only phase 0 is in the phase selection; the project changed. -/
def scopeChainRepo : Repo :=
  { phases := [{ name := "p0", selfDeps := [], upstreamDeps := [] },
               { name := "p1", selfDeps := [0], upstreamDeps := [] }]
    projects := [{ packageName := "a", dependencyProjects := [] }]
    projectConfigurations := [none] }

def scopeChainCtx : CreateContext :=
  { changedProjects := [0], phaseOriginal := [1], phaseSelection := [0],
    projectSelection := [0] }

/-- The full pass over `scopeChainRepo`: the out-of-scope phase-1 operation
consumes the changed phase-0 operation, so propagation adds it to the
work-tracking set. -/
def scopeChainResult : BuildState :=
  (createOperations scopeChainRepo scopeChainCtx 5 [] []).getD emptyState

/-- A three-node consumer chain `0 → 1 → 2` for the propagation claim. -/
def chainOps : List Op :=
  [{ project := 0, phase := 0, shard := none, runner := none, dependencies := [],
     consumers := [1] },
   { project := 0, phase := 1, shard := none, runner := none, dependencies := [0],
     consumers := [2] },
   { project := 0, phase := 2, shard := none, runner := none, dependencies := [1],
     consumers := [] }]

/-! ## Utility lemmas -/

theorem insertIfAbsent_mem {l : List Nat} {x y : Nat} :
    y ∈ insertIfAbsent l x ↔ y ∈ l ∨ y = x := by
  unfold insertIfAbsent
  by_cases h : x ∈ l
  · simp only [if_pos h]
    constructor
    · exact Or.inl
    · rintro (hy | rfl)
      · exact hy
      · exact h
  · simp [if_neg h]

theorem insertIfAbsent_subset {l : List Nat} {x : Nat} : ∀ y ∈ l, y ∈ insertIfAbsent l x := by
  intro y hy
  exact insertIfAbsent_mem.mpr (Or.inl hy)

theorem self_mem_insertIfAbsent {l : List Nat} {x : Nat} : x ∈ insertIfAbsent l x :=
  insertIfAbsent_mem.mpr (Or.inr rfl)

theorem insertIfAbsent_of_mem {l : List Nat} {x : Nat} (h : x ∈ l) :
    insertIfAbsent l x = l := by
  unfold insertIfAbsent
  simp [if_pos h]

theorem modifyNth_length (f : Op → Op) : ∀ (n : Nat) (l : List Op),
    (modifyNth f n l).length = l.length := by
  intro n l
  induction l generalizing n with
  | nil => cases n <;> rfl
  | cons a t ih =>
      cases n with
      | zero => rfl
      | succ m => simpa [modifyNth] using ih m

theorem modifyNth_getD_ne (f : Op → Op) :
    ∀ (n : Nat) (l : List Op) (i : Nat), i ≠ n →
      (modifyNth f n l).getD i default = l.getD i default := by
  intro n l
  induction l generalizing n with
  | nil => intro i _; cases n <;> rfl
  | cons a t ih =>
      intro i hi
      cases n with
      | zero =>
          cases i with
          | zero => exact absurd rfl hi
          | succ j => simp [modifyNth]
      | succ m =>
          cases i with
          | zero => simp [modifyNth]
          | succ j =>
              simp only [modifyNth, List.getD_cons_succ]
              exact ih m j (fun h => hi (by omega))

theorem modifyNth_getD_self (f : Op → Op) :
    ∀ (n : Nat) (l : List Op), n < l.length →
      (modifyNth f n l).getD n default = f (l.getD n default) := by
  intro n l
  induction l generalizing n with
  | nil => intro h; simp at h
  | cons a t ih =>
      intro h
      cases n with
      | zero => rfl
      | succ m =>
          simp only [modifyNth, List.getD_cons_succ]
          exact ih m (by simpa using h)

theorem modifyNth_out_of_range (f : Op → Op) :
    ∀ (n : Nat) (l : List Op), l.length ≤ n → modifyNth f n l = l := by
  intro n l
  induction l generalizing n with
  | nil => intro _; cases n <;> rfl
  | cons a t ih =>
      intro h
      cases n with
      | zero => simp at h
      | succ m => simp [modifyNth, ih m (by simpa using h)]

theorem getD_append_left {l : List Op} {t : List Op} {i : Nat} (h : i < l.length) :
    (l ++ t).getD i default = l.getD i default := by
  rw [List.getD_eq_getElem?_getD, List.getD_eq_getElem?_getD,
    List.getElem?_append_left h]

theorem getD_append_right_self {l : List Op} {o : Op} :
    (l ++ [o]).getD l.length default = o := by
  rw [List.getD_eq_getElem?_getD, List.getElem?_append_right (Nat.le_refl _)]
  simp

theorem memoLookup_memoSet_self (m : List (String × List Nat)) (k : String) (v : List Nat) :
    memoLookup (memoSet m k v) k = some v := by
  induction m with
  | nil => simp [memoSet, memoLookup]
  | cons kv rest ih =>
      by_cases h : kv.1 = k
      · simp [memoSet, memoLookup, h]
      · simpa [memoSet, memoLookup, h] using ih

theorem memoLookup_memoSet_ne (m : List (String × List Nat)) (k k' : String)
    (v : List Nat) (h : k' ≠ k) :
    memoLookup (memoSet m k v) k' = memoLookup m k' := by
  induction m with
  | nil =>
      simp only [memoSet, memoLookup]
      rw [if_neg (fun hkk => h hkk.symm)]
  | cons kv rest ih =>
      obtain ⟨k1, v1⟩ := kv
      by_cases hk : k1 = k
      · subst hk
        simp only [memoSet, if_pos rfl, memoLookup]
        rw [if_neg (fun hkk => h hkk.symm), if_neg (fun hkk => h hkk.symm)]
      · simp only [memoSet, if_neg hk, memoLookup]
        by_cases hk' : k1 = k'
        · simp [hk']
        · simp [hk', ih]

theorem memoSet_keys (m : List (String × List Nat)) (k : String) (v : List Nat) :
    (memoSet m k v).map Prod.fst =
      if k ∈ m.map Prod.fst then m.map Prod.fst else m.map Prod.fst ++ [k] := by
  induction m with
  | nil => simp [memoSet]
  | cons kv rest ih =>
      obtain ⟨k1, v1⟩ := kv
      by_cases hk : k1 = k
      · subst hk
        simp [memoSet]
      · have hne : ¬ k = k1 := fun h => hk h.symm
        simp only [memoSet, if_neg hk, List.map_cons, ih, List.mem_cons]
        by_cases hmem : k ∈ rest.map Prod.fst
        · simp [hmem, hne]
        · simp [hmem, hne]

theorem memoSet_keys_nodup {m : List (String × List Nat)} {k : String} {v : List Nat}
    (h : (m.map Prod.fst).Nodup) : ((memoSet m k v).map Prod.fst).Nodup := by
  rw [memoSet_keys]
  by_cases hmem : k ∈ m.map Prod.fst
  · simpa [hmem] using h
  · rw [if_neg hmem]
    simp only [List.nodup_append, List.nodup_cons, List.not_mem_nil, not_false_iff,
      List.nodup_nil, and_true, true_and]
    exact ⟨h, by simpa [List.disjoint_singleton] using hmem⟩

theorem mem_of_memoLookup {m : List (String × List Nat)} {k : String} {l : List Nat}
    (h : memoLookup m k = some l) : (k, l) ∈ m := by
  induction m with
  | nil => simp [memoLookup] at h
  | cons kv rest ih =>
      obtain ⟨k1, v1⟩ := kv
      simp only [memoLookup] at h
      by_cases hk : k1 = k
      · rw [if_pos hk] at h
        injection h with h2
        rw [List.mem_cons]
        left
        rw [hk, h2]
      · rw [if_neg hk] at h
        exact List.mem_cons_of_mem _ (ih h)

theorem memoLookup_of_mem_nodup {m : List (String × List Nat)} {k : String} {l : List Nat}
    (hn : (m.map Prod.fst).Nodup) (h : (k, l) ∈ m) : memoLookup m k = some l := by
  induction m with
  | nil => simp at h
  | cons kv rest ih =>
      obtain ⟨k1, v1⟩ := kv
      simp only [List.map_cons, List.nodup_cons] at hn
      rcases List.mem_cons.mp h with h1 | h1
      · injection h1 with ha hb
        subst ha
        subst hb
        simp [memoLookup]
      · have hk : k1 ≠ k := by
          intro heq
          subst heq
          exact hn.1 (List.mem_map.mpr ⟨(k1, l), h1, rfl⟩)
        simp only [memoLookup, if_neg hk]
        exact ih hn.2 h1

/-! ## State primitives: field-level lemmas -/

theorem modifyNth_getD_core (f : Op → Op) (hf : ∀ o, opCore (f o) = opCore o)
    (n : Nat) (l : List Op) (j : Nat) :
    opCore ((modifyNth f n l).getD j default) = opCore (l.getD j default) := by
  by_cases hj : j = n
  · by_cases hl : n < l.length
    · rw [hj, modifyNth_getD_self _ _ _ hl, hf]
    · rw [modifyNth_out_of_range _ _ _ (Nat.le_of_not_lt hl)]
  · rw [modifyNth_getD_ne _ _ _ _ hj]

theorem modifyNth_getD_depsEq (f : Op → Op)
    (hf : ∀ o, (f o).dependencies = o.dependencies) (n : Nat) (l : List Op) (j : Nat) :
    ((modifyNth f n l).getD j default).dependencies = (l.getD j default).dependencies := by
  by_cases hj : j = n
  · by_cases hl : n < l.length
    · rw [hj, modifyNth_getD_self _ _ _ hl, hf]
    · rw [modifyNth_out_of_range _ _ _ (Nat.le_of_not_lt hl)]
  · rw [modifyNth_getD_ne _ _ _ _ hj]

theorem modifyNth_getD_consEq (f : Op → Op)
    (hf : ∀ o, (f o).consumers = o.consumers) (n : Nat) (l : List Op) (j : Nat) :
    ((modifyNth f n l).getD j default).consumers = (l.getD j default).consumers := by
  by_cases hj : j = n
  · by_cases hl : n < l.length
    · rw [hj, modifyNth_getD_self _ _ _ hl, hf]
    · rw [modifyNth_out_of_range _ _ _ (Nat.le_of_not_lt hl)]
  · rw [modifyNth_getD_ne _ _ _ _ hj]

theorem newOperation_fst (st : BuildState) (projId phaseId : Nat) (sh : Option (Nat × Nat)) :
    (newOperation st projId phaseId sh).1 = st.ops.length := rfl

theorem newOperation_length (st : BuildState) (projId phaseId : Nat) (sh : Option (Nat × Nat)) :
    (newOperation st projId phaseId sh).2.ops.length = st.ops.length + 1 := by
  simp [newOperation]

theorem newOperation_opAt_old (st : BuildState) (projId phaseId : Nat)
    (sh : Option (Nat × Nat)) {i : Nat} (h : i < st.ops.length) :
    opAt (newOperation st projId phaseId sh).2 i = opAt st i := by
  simp only [newOperation, opAt]
  exact getD_append_left h

theorem newOperation_opAt_new (st : BuildState) (projId phaseId : Nat)
    (sh : Option (Nat × Nat)) :
    opAt (newOperation st projId phaseId sh).2 st.ops.length =
      { project := projId, phase := phaseId, shard := sh, runner := none,
        dependencies := [], consumers := [] } := by
  simp only [newOperation, opAt]
  exact getD_append_right_self

theorem newOperation_memo (st : BuildState) (projId phaseId : Nat) (sh : Option (Nat × Nat)) :
    (newOperation st projId phaseId sh).2.allOperations = st.allOperations := rfl

theorem newOperation_work (st : BuildState) (projId phaseId : Nat) (sh : Option (Nat × Nat)) :
    (newOperation st projId phaseId sh).2.operationsWithWork = st.operationsWithWork := rfl

theorem newOperation_existing (st : BuildState) (projId phaseId : Nat) (sh : Option (Nat × Nat)) :
    (newOperation st projId phaseId sh).2.existingOperations = st.existingOperations := rfl

theorem setRunner_length (st : BuildState) (i : Nat) (r : IOperationRunner) :
    (setRunner st i r).ops.length = st.ops.length := by
  simp [setRunner, modifyNth_length]

theorem setRunner_opAt_ne (st : BuildState) (i : Nat) (r : IOperationRunner)
    {j : Nat} (h : j ≠ i) : opAt (setRunner st i r) j = opAt st j := by
  simp only [setRunner, opAt]
  exact modifyNth_getD_ne _ _ _ _ h

theorem setRunner_opAt_self (st : BuildState) (i : Nat) (r : IOperationRunner)
    (h : i < st.ops.length) :
    opAt (setRunner st i r) i = { opAt st i with runner := some r } := by
  simp only [setRunner, opAt]
  exact modifyNth_getD_self _ _ _ h

theorem setRunner_memo (st : BuildState) (i : Nat) (r : IOperationRunner) :
    (setRunner st i r).allOperations = st.allOperations := rfl

theorem setRunner_work (st : BuildState) (i : Nat) (r : IOperationRunner) :
    (setRunner st i r).operationsWithWork = st.operationsWithWork := rfl

theorem setRunner_existing (st : BuildState) (i : Nat) (r : IOperationRunner) :
    (setRunner st i r).existingOperations = st.existingOperations := rfl

theorem setRunner_deps (st : BuildState) (i : Nat) (r : IOperationRunner) (j : Nat) :
    depsOf (setRunner st i r) j = depsOf st j := by
  simp only [setRunner, depsOf, opAt]
  exact modifyNth_getD_depsEq (fun o => { o with runner := some r }) (fun o => rfl) _ _ _

theorem setRunner_cons (st : BuildState) (i : Nat) (r : IOperationRunner) (j : Nat) :
    consOf (setRunner st i r) j = consOf st j := by
  simp only [setRunner, consOf, opAt]
  exact modifyNth_getD_consEq (fun o => { o with runner := some r }) (fun o => rfl) _ _ _

theorem addDependency_length (st : BuildState) (a b : Nat) :
    (addDependency st a b).ops.length = st.ops.length := by
  simp [addDependency, modifyNth_length]

theorem addDependency_core (st : BuildState) (a b : Nat) (j : Nat) :
    opCore (opAt (addDependency st a b) j) = opCore (opAt st j) := by
  simp only [addDependency, opAt]
  rw [modifyNth_getD_core (fun o => { o with consumers := insertIfAbsent o.consumers a })
    (fun o => rfl)]
  rw [modifyNth_getD_core (fun o => { o with dependencies := insertIfAbsent o.dependencies b })
    (fun o => rfl)]

theorem addDependency_deps_ne (st : BuildState) (a b : Nat) {j : Nat} (h : j ≠ a) :
    depsOf (addDependency st a b) j = depsOf st j := by
  simp only [addDependency, depsOf, opAt]
  rw [modifyNth_getD_depsEq (fun o => { o with consumers := insertIfAbsent o.consumers a })
    (fun o => rfl) b _ j]
  rw [modifyNth_getD_ne _ _ _ _ h]

theorem addDependency_deps_self (st : BuildState) (a b : Nat) (h : a < st.ops.length) :
    depsOf (addDependency st a b) a = insertIfAbsent (depsOf st a) b := by
  simp only [addDependency, depsOf, opAt]
  rw [modifyNth_getD_depsEq (fun o => { o with consumers := insertIfAbsent o.consumers a })
    (fun o => rfl) b _ a]
  rw [modifyNth_getD_self _ _ _ h]

theorem addDependency_cons_ne (st : BuildState) (a b : Nat) {j : Nat} (h : j ≠ b) :
    consOf (addDependency st a b) j = consOf st j := by
  simp only [addDependency, consOf, opAt]
  rw [modifyNth_getD_ne _ _ _ _ h]
  exact modifyNth_getD_consEq (fun o => { o with dependencies := insertIfAbsent o.dependencies b })
    (fun o => rfl) _ _ _

theorem addDependency_cons_self (st : BuildState) (a b : Nat) (h : b < st.ops.length) :
    consOf (addDependency st a b) b = insertIfAbsent (consOf st b) a := by
  simp only [addDependency, consOf, opAt]
  have hl : b < (modifyNth (fun o => { o with dependencies := insertIfAbsent o.dependencies b }) a st.ops).length := by
    rw [modifyNth_length]
    exact h
  rw [modifyNth_getD_self _ _ _ hl]
  show insertIfAbsent ((modifyNth (fun o => { o with dependencies := insertIfAbsent o.dependencies b }) a st.ops).getD b default).consumers a = insertIfAbsent (st.ops.getD b default).consumers a
  rw [modifyNth_getD_consEq (fun o => { o with dependencies := insertIfAbsent o.dependencies b })
    (fun o => rfl) a _ b]

theorem addDependency_memo (st : BuildState) (a b : Nat) :
    (addDependency st a b).allOperations = st.allOperations := rfl

theorem addDependency_work (st : BuildState) (a b : Nat) :
    (addDependency st a b).operationsWithWork = st.operationsWithWork := rfl

theorem addDependency_existing (st : BuildState) (a b : Nat) :
    (addDependency st a b).existingOperations = st.existingOperations := rfl

theorem addWork_ops (st : BuildState) (i : Nat) : (addWork st i).ops = st.ops := rfl

theorem addWork_memo (st : BuildState) (i : Nat) :
    (addWork st i).allOperations = st.allOperations := rfl

theorem addWork_existing (st : BuildState) (i : Nat) :
    (addWork st i).existingOperations = st.existingOperations := rfl

theorem addWork_mem (st : BuildState) (i : Nat) {x : Nat} :
    x ∈ (addWork st i).operationsWithWork ↔ x ∈ st.operationsWithWork ∨ x = i := by
  simp only [addWork]
  exact insertIfAbsent_mem

theorem addExisting_ops (st : BuildState) (i : Nat) : (addExisting st i).ops = st.ops := rfl

theorem addExisting_memo (st : BuildState) (i : Nat) :
    (addExisting st i).allOperations = st.allOperations := rfl

theorem addExisting_work (st : BuildState) (i : Nat) :
    (addExisting st i).operationsWithWork = st.operationsWithWork := rfl

theorem addExisting_mem (st : BuildState) (i : Nat) {x : Nat} :
    x ∈ (addExisting st i).existingOperations ↔ x ∈ st.existingOperations ∨ x = i := by
  simp only [addExisting]
  exact insertIfAbsent_mem

theorem addDependencyList_memo (st : BuildState) (t : Nat) (l : List Nat) :
    (addDependencyList st t l).allOperations = st.allOperations := by
  induction l generalizing st with
  | nil => rfl
  | cons x xs ih => simpa [addDependencyList, List.foldl_cons] using ih (addDependency st t x)

theorem addDependencyList_work (st : BuildState) (t : Nat) (l : List Nat) :
    (addDependencyList st t l).operationsWithWork = st.operationsWithWork := by
  induction l generalizing st with
  | nil => rfl
  | cons x xs ih => simpa [addDependencyList, List.foldl_cons] using ih (addDependency st t x)

theorem addDependencyList_existing (st : BuildState) (t : Nat) (l : List Nat) :
    (addDependencyList st t l).existingOperations = st.existingOperations := by
  induction l generalizing st with
  | nil => rfl
  | cons x xs ih => simpa [addDependencyList, List.foldl_cons] using ih (addDependency st t x)

theorem addDependencyList_length (st : BuildState) (t : Nat) (l : List Nat) :
    (addDependencyList st t l).ops.length = st.ops.length := by
  induction l generalizing st with
  | nil => rfl
  | cons x xs ih =>
      simp only [addDependencyList, List.foldl_cons]
      rw [show List.foldl (fun s o => addDependency s t o) (addDependency st t x) xs =
        addDependencyList (addDependency st t x) t xs from rfl]
      rw [ih (addDependency st t x), addDependency_length]

theorem addDependencyList_core (st : BuildState) (t : Nat) (l : List Nat) (j : Nat) :
    opCore (opAt (addDependencyList st t l) j) = opCore (opAt st j) := by
  induction l generalizing st with
  | nil => rfl
  | cons x xs ih =>
      simp only [addDependencyList, List.foldl_cons]
      rw [show List.foldl (fun s o => addDependency s t o) (addDependency st t x) xs =
        addDependencyList (addDependency st t x) t xs from rfl]
      rw [ih (addDependency st t x), addDependency_core]

theorem addDependencyList_deps_ne (st : BuildState) (t : Nat) (l : List Nat)
    {j : Nat} (h : j ≠ t) : depsOf (addDependencyList st t l) j = depsOf st j := by
  induction l generalizing st with
  | nil => rfl
  | cons x xs ih =>
      simp only [addDependencyList, List.foldl_cons]
      rw [show List.foldl (fun s o => addDependency s t o) (addDependency st t x) xs =
        addDependencyList (addDependency st t x) t xs from rfl]
      rw [ih (addDependency st t x), addDependency_deps_ne _ _ _ h]

theorem addDependencyList_cons_ne (st : BuildState) (t : Nat) (l : List Nat)
    {j : Nat} (h : j ∉ l) : consOf (addDependencyList st t l) j = consOf st j := by
  induction l generalizing st with
  | nil => rfl
  | cons x xs ih =>
      simp only [addDependencyList, List.foldl_cons]
      rw [show List.foldl (fun s o => addDependency s t o) (addDependency st t x) xs =
        addDependencyList (addDependency st t x) t xs from rfl]
      have hx : j ∉ xs := fun hm => h (List.mem_cons_of_mem _ hm)
      rw [ih (addDependency st t x) hx,
        addDependency_cons_ne _ _ _ (fun he => h (by rw [he]; exact List.mem_cons_self _ _))]

theorem addDependencyList_deps_mem (st : BuildState) (t : Nat) (l : List Nat)
    (ht : t < st.ops.length) {x : Nat} :
    x ∈ depsOf (addDependencyList st t l) t ↔ x ∈ depsOf st t ∨ x ∈ l := by
  induction l generalizing st with
  | nil => simp [addDependencyList]
  | cons y ys ih =>
      simp only [addDependencyList, List.foldl_cons]
      rw [show List.foldl (fun s o => addDependency s t o) (addDependency st t y) ys =
        addDependencyList (addDependency st t y) t ys from rfl]
      have ht' : t < (addDependency st t y).ops.length := by
        rw [addDependency_length]; exact ht
      rw [ih (addDependency st t y) ht', addDependency_deps_self _ _ _ ht]
      rw [insertIfAbsent_mem]
      simp only [List.mem_cons]
      tauto

/-! ## The transition relation established by every builder step -/

theorem StepOK.refl (st : BuildState) : StepOK st st :=
  ⟨Nat.le_refl _, fun _ _ => rfl, fun _ _ h => h, fun _ _ h => Or.inl h,
   fun _ h => h, fun _ h => h⟩

theorem StepOK.trans {s1 s2 s3 : BuildState} (h12 : StepOK s1 s2) (h23 : StepOK s2 s3) :
    StepOK s1 s3 := by
  refine ⟨Nat.le_trans h12.opsLen h23.opsLen, ?_, ?_, ?_, ?_, ?_⟩
  · intro i hi
    rw [h23.opsCore i (Nat.lt_of_lt_of_le hi h12.opsLen), h12.opsCore i hi]
  · intro k l h
    exact h23.memoOld k l (h12.memoOld k l h)
  · intro k l h
    rcases h23.memoFresh k l h with h2 | h2
    · exact h12.memoFresh k l h2
    · right
      intro x hx
      exact Nat.le_trans h12.opsLen (h2 x hx)
  · intro x hx
    exact h23.workMono x (h12.workMono x hx)
  · intro x hx
    exact h23.existMono x (h12.existMono x hx)

theorem stepOK_newOperation (st : BuildState) (projId phaseId : Nat)
    (sh : Option (Nat × Nat)) : StepOK st (newOperation st projId phaseId sh).2 := by
  refine ⟨?_, ?_, ?_, ?_, ?_, ?_⟩
  · rw [newOperation_length]; exact Nat.le_succ _
  · intro i hi
    rw [newOperation_opAt_old _ _ _ _ hi]
  · intro k l h
    rw [newOperation_memo]; exact h
  · intro k l h
    rw [newOperation_memo] at h; exact Or.inl h
  · intro x hx
    rw [newOperation_work]; exact hx
  · intro x hx
    rw [newOperation_existing]; exact hx

theorem stepOK_addDependency (st : BuildState) (a b : Nat) :
    StepOK st (addDependency st a b) := by
  refine ⟨?_, ?_, ?_, ?_, ?_, ?_⟩
  · rw [addDependency_length]
  · intro i _
    exact addDependency_core st a b i
  · intro k l h
    rw [addDependency_memo]; exact h
  · intro k l h
    rw [addDependency_memo] at h; exact Or.inl h
  · intro x hx
    rw [addDependency_work]; exact hx
  · intro x hx
    rw [addDependency_existing]; exact hx

theorem stepOK_addDependencyList (st : BuildState) (t : Nat) (l : List Nat) :
    StepOK st (addDependencyList st t l) := by
  refine ⟨?_, ?_, ?_, ?_, ?_, ?_⟩
  · rw [addDependencyList_length]
  · intro i _
    exact addDependencyList_core st t l i
  · intro k l' h
    rw [addDependencyList_memo]; exact h
  · intro k l' h
    rw [addDependencyList_memo] at h; exact Or.inl h
  · intro x hx
    rw [addDependencyList_work]; exact hx
  · intro x hx
    rw [addDependencyList_existing]; exact hx

theorem stepOK_addWork (st : BuildState) (i : Nat) : StepOK st (addWork st i) := by
  refine ⟨Nat.le_refl _, fun _ _ => rfl, fun _ _ h => h, fun _ _ h => Or.inl h, ?_, fun _ h => h⟩
  intro x hx
  exact (addWork_mem st i).mpr (Or.inl hx)

theorem stepOK_addExisting (st : BuildState) (i : Nat) : StepOK st (addExisting st i) := by
  refine ⟨Nat.le_refl _, fun _ _ => rfl, fun _ _ h => h, fun _ _ h => Or.inl h, fun _ h => h, ?_⟩
  intro x hx
  exact (addExisting_mem st i).mpr (Or.inl hx)

theorem StepOK.trans_setRunner {st st2 : BuildState} (h : StepOK st st2) {i : Nat}
    (hi : st.ops.length ≤ i) (r : IOperationRunner) : StepOK st (setRunner st2 i r) := by
  refine ⟨?_, ?_, ?_, ?_, ?_, ?_⟩
  · rw [setRunner_length]; exact h.opsLen
  · intro j hj
    rw [setRunner_opAt_ne _ _ _ (by omega)]
    exact h.opsCore j hj
  · intro k l hl
    rw [setRunner_memo]; exact h.memoOld k l hl
  · intro k l hl
    rw [setRunner_memo] at hl; exact h.memoFresh k l hl
  · intro x hx
    rw [setRunner_work]; exact h.workMono x hx
  · intro x hx
    rw [setRunner_existing]; exact h.existMono x hx

theorem StepOK.trans_memoSet {st st2 : BuildState} (h : StepOK st st2) {k : String}
    {v : List Nat} (hk : memoLookup st.allOperations k = none)
    (hv : ∀ x ∈ v, st.ops.length ≤ x) :
    StepOK st { st2 with allOperations := memoSet st2.allOperations k v } := by
  refine ⟨h.opsLen, h.opsCore, ?_, ?_, h.workMono, h.existMono⟩
  · intro k' l hl
    have hne : k' ≠ k := by
      intro he
      rw [he, hk] at hl
      exact Option.noConfusion hl
    show memoLookup (memoSet st2.allOperations k v) k' = some l
    rw [memoLookup_memoSet_ne _ _ _ _ hne]
    exact h.memoOld k' l hl
  · intro k' l hl
    have hl2 : memoLookup (memoSet st2.allOperations k v) k' = some l := hl
    by_cases hne : k' = k
    · subst hne
      rw [memoLookup_memoSet_self] at hl2
      injection hl2 with hl2
      subst hl2
      exact Or.inr hv
    · rw [memoLookup_memoSet_ne _ _ _ _ hne] at hl2
      exact h.memoFresh k' l hl2

/-! ## Structure of the shard-creation loop -/

theorem createShards_spec (projId phaseId total r sv : Nat) :
    ∀ (k : Nat) (st : BuildState), k ≤ total → r < st.ops.length → sv < st.ops.length →
    (createShards projId phaseId total r sv k st).1 = List.range' st.ops.length k ∧
    (createShards projId phaseId total r sv k st).2.ops.length = st.ops.length + k ∧
    (createShards projId phaseId total r sv k st).2.allOperations = st.allOperations ∧
    (∀ j, j < st.ops.length → j ≠ sv →
      depsOf (createShards projId phaseId total r sv k st).2 j = depsOf st j) ∧
    (∀ j, j < st.ops.length →
      opCore (opAt (createShards projId phaseId total r sv k st).2 j) = opCore (opAt st j)) ∧
    (∀ j, j < st.ops.length → j ≠ r →
      consOf (createShards projId phaseId total r sv k st).2 j = consOf st j) ∧
    (∀ x, x ∈ depsOf (createShards projId phaseId total r sv k st).2 sv ↔
      x ∈ depsOf st sv ∨ x ∈ List.range' st.ops.length k) ∧
    (∀ i2, i2 < k → opAt (createShards projId phaseId total r sv k st).2 (st.ops.length + i2) =
      { project := projId, phase := phaseId, shard := some (total - k + 1 + i2, total),
        runner := none, dependencies := [r], consumers := [sv] }) ∧
    (∀ x ∈ st.operationsWithWork,
      x ∈ (createShards projId phaseId total r sv k st).2.operationsWithWork) ∧
    (∀ x ∈ st.existingOperations,
      x ∈ (createShards projId phaseId total r sv k st).2.existingOperations) ∧
    (∀ j ∈ List.range' st.ops.length k,
      j ∈ (createShards projId phaseId total r sv k st).2.operationsWithWork ∧
      j ∈ (createShards projId phaseId total r sv k st).2.existingOperations) := by
  intro k
  induction k with
  | zero =>
      intro st _ hr hsv
      refine ⟨rfl, rfl, rfl, fun j _ _ => rfl, fun j _ => rfl, fun j _ _ => rfl,
        fun x => by simp [createShards, List.range'], fun i2 h => absurd h (Nat.not_lt_zero _),
        fun x h => h, fun x h => h, fun j hj => absurd hj (by simp [List.range'])⟩
  | succ k ih =>
      intro st hk hr hsv
      simp only [createShards]
      set i := st.ops.length with hi
      set st1 := (newOperation st projId phaseId (some (total - k, total))).2 with hst1
      set st2 := addDependency st1 i r with hst2
      set st3 := addDependency st2 sv i with hst3
      set st4 := addWork st3 i with hst4
      set st5 := addExisting st4 i with hst5
      have hlen5 : st5.ops.length = st.ops.length + 1 := by
        rw [hst5, hst4, addExisting_ops, addWork_ops, hst3, addDependency_length, hst2,
          addDependency_length, hst1, newOperation_length]
      have hr5 : r < st5.ops.length := by omega
      have hsv5 : sv < st5.ops.length := by omega
      obtain ⟨ih1, ih2, ih3, ih4, ih5, ih6, ih7, ih8, ih9, ih10, ih11⟩ := ih st5 (by omega) hr5 hsv5
      -- facts about the single step st → st5
      have hop5old : ∀ j, j < st.ops.length → j ≠ sv → j ≠ r → opAt st5 j = opAt st j := by
        intro j hj hjsv hjr
        have hji : j ≠ i := by omega
        rw [hst5, hst4]
        show opAt st3 j = opAt st j
        rw [hst3]
        have h1 : opAt (addDependency st2 sv i) j = opAt st2 j := by
          unfold addDependency
          simp only [opAt]
          rw [modifyNth_getD_ne _ _ _ _ hji, modifyNth_getD_ne _ _ _ _ hjsv]
        rw [h1, hst2]
        have h2 : opAt (addDependency st1 i r) j = opAt st1 j := by
          unfold addDependency
          simp only [opAt]
          rw [modifyNth_getD_ne _ _ _ _ hjr, modifyNth_getD_ne _ _ _ _ hji]
        rw [h2, hst1, newOperation_opAt_old _ _ _ _ hj]
      have hdeps5 : ∀ j, j < st.ops.length → j ≠ sv → depsOf st5 j = depsOf st j := by
        intro j hj hjsv
        have hji : j ≠ i := by omega
        rw [hst5, hst4]
        show depsOf st3 j = depsOf st j
        rw [hst3, addDependency_deps_ne _ _ _ hjsv, hst2, addDependency_deps_ne _ _ _ hji,
          hst1]
        show ((newOperation st projId phaseId (some (total - k, total))).2.ops.getD j default).dependencies = depsOf st j
        rw [show (newOperation st projId phaseId (some (total - k, total))).2.ops.getD j default = opAt (newOperation st projId phaseId (some (total - k, total))).2 j from rfl,
          newOperation_opAt_old _ _ _ _ hj]
        rfl
      have hcore5 : ∀ j, j < st.ops.length → opCore (opAt st5 j) = opCore (opAt st j) := by
        intro j hj
        rw [hst5, hst4]
        show opCore (opAt st3 j) = opCore (opAt st j)
        rw [hst3, addDependency_core, hst2, addDependency_core, hst1,
          newOperation_opAt_old _ _ _ _ hj]
      have hcons5 : ∀ j, j < st.ops.length → j ≠ r → consOf st5 j = consOf st j := by
        intro j hj hjr
        have hji : j ≠ i := by omega
        rw [hst5, hst4]
        show consOf st3 j = consOf st j
        rw [hst3, addDependency_cons_ne _ _ _ hji, hst2, addDependency_cons_ne _ _ _ hjr,
          hst1]
        show ((newOperation st projId phaseId (some (total - k, total))).2.ops.getD j default).consumers = consOf st j
        rw [show (newOperation st projId phaseId (some (total - k, total))).2.ops.getD j default = opAt (newOperation st projId phaseId (some (total - k, total))).2 j from rfl,
          newOperation_opAt_old _ _ _ _ hj]
        rfl
      have hdeps5sv : depsOf st5 sv = insertIfAbsent (depsOf st sv) i := by
        rw [hst5, hst4]
        show depsOf st3 sv = insertIfAbsent (depsOf st sv) i
        rw [hst3, addDependency_deps_self _ _ _ (by rw [hst2, addDependency_length, hst1, newOperation_length]; omega)]
        rw [hst2, addDependency_deps_ne _ _ _ (by omega : sv ≠ i), hst1]
        show insertIfAbsent ((newOperation st projId phaseId (some (total - k, total))).2.ops.getD sv default).dependencies i = insertIfAbsent (depsOf st sv) i
        rw [show (newOperation st projId phaseId (some (total - k, total))).2.ops.getD sv default = opAt (newOperation st projId phaseId (some (total - k, total))).2 sv from rfl,
          newOperation_opAt_old _ _ _ _ hsv]
        rfl
      have hopAt5i : opAt st5 i =
          { project := projId, phase := phaseId, shard := some (total - k, total),
            runner := none, dependencies := [r], consumers := [sv] } := by
        rw [hst5, hst4]
        show opAt st3 i = _
        have hi1 : i < st1.ops.length := by rw [hst1, newOperation_length]; omega
        have h1 : opAt st2 i = { opAt st1 i with dependencies := insertIfAbsent (opAt st1 i).dependencies r } := by
          rw [hst2]
          unfold addDependency
          simp only [opAt]
          rw [modifyNth_getD_ne _ _ _ _ (by omega : i ≠ r), modifyNth_getD_self _ _ _ hi1]
        have h2 : opAt st3 i = { opAt st2 i with consumers := insertIfAbsent (opAt st2 i).consumers sv } := by
          rw [hst3]
          unfold addDependency
          simp only [opAt]
          have hi2 : i < (modifyNth (fun o => { o with dependencies := insertIfAbsent o.dependencies i }) sv st2.ops).length := by
            rw [modifyNth_length, hst2, addDependency_length]
            exact hi1
          rw [modifyNth_getD_self _ _ _ hi2, modifyNth_getD_ne _ _ _ _ (by omega : i ≠ sv)]
        rw [h2, h1, hst1, hi, newOperation_opAt_new]
        simp [insertIfAbsent]
      -- assemble
      have hrange : List.range' st.ops.length (k + 1) = i :: List.range' st5.ops.length k := by
        rw [hlen5, hi]
        rfl
      refine ⟨?_, ?_, ?_, ?_, ?_, ?_, ?_, ?_, ?_, ?_, ?_⟩
      · rw [ih1, hrange]
      · rw [ih2, hlen5]; omega
      · rw [ih3, hst5, hst4, addExisting_memo, addWork_memo, hst3, addDependency_memo, hst2,
          addDependency_memo, hst1, newOperation_memo]
      · intro j hj hjsv
        rw [ih4 j (by omega) hjsv, hdeps5 j hj hjsv]
      · intro j hj
        rw [ih5 j (by omega), hcore5 j hj]
      · intro j hj hjr
        rw [ih6 j (by omega) hjr, hcons5 j hj hjr]
      · intro x
        rw [ih7 x, hdeps5sv, insertIfAbsent_mem, hrange]
        simp only [List.mem_cons]
        tauto
      · intro i2 hi2
        cases i2 with
        | zero =>
            have : st.ops.length + 0 = i := by omega
            rw [this]
            have hne : ∀ j, j < st5.ops.length → opCore (opAt (createShards projId phaseId total r sv k st5).2 j) = opCore (opAt st5 j) := ih5
            -- the head shard is untouched by the recursive call
            have h1 : depsOf (createShards projId phaseId total r sv k st5).2 i = depsOf st5 i := by
              refine ih4 i (by omega) (by omega)
            have h2 : consOf (createShards projId phaseId total r sv k st5).2 i = consOf st5 i := by
              refine ih6 i (by omega) (by omega)
            have h3 : opCore (opAt (createShards projId phaseId total r sv k st5).2 i) = opCore (opAt st5 i) := ih5 i (by omega)
            have hgoal : opAt (createShards projId phaseId total r sv k st5).2 i = opAt st5 i := by
              have e1 := h1
              have e2 := h2
              have e3 := h3
              simp only [depsOf, consOf, opCore, opAt, Prod.mk.injEq] at e1 e2 e3 ⊢
              obtain ⟨c1, c2, c3, c4⟩ := e3
              cases hA : (createShards projId phaseId total r sv k st5).2.ops.getD i default
              cases hB : st5.ops.getD i default
              simp only [hA, hB] at e1 e2 c1 c2 c3 c4 ⊢
              simp [c1, c2, c3, c4, e1, e2]
            rw [hgoal, hopAt5i]
            have he : total - (k + 1) + 1 + 0 = total - k := by omega
            rw [he]
        | succ i3 =>
            have heq : st.ops.length + (i3 + 1) = st5.ops.length + i3 := by omega
            rw [heq, ih8 i3 (by omega)]
            have he : total - (k + 1) + 1 + (i3 + 1) = total - k + 1 + i3 := by omega
            rw [he]
      · intro x hx
        refine ih9 x ?_
        rw [hst5, hst4, addExisting_work]
        exact (addWork_mem st3 i).mpr (Or.inl (by
          rw [hst3, addDependency_work, hst2, addDependency_work, hst1, newOperation_work]
          exact hx))
      · intro x hx
        refine ih10 x ?_
        rw [hst5]
        refine (addExisting_mem st4 i).mpr (Or.inl ?_)
        rw [hst4, addWork_existing, hst3, addDependency_existing, hst2, addDependency_existing,
          hst1, newOperation_existing]
        exact hx
      · intro j hj
        rw [hrange] at hj
        rcases List.mem_cons.mp hj with hj1 | hj2
        · refine ⟨ih9 j ?_, ih10 j ?_⟩
          · rw [hst5, hst4, addExisting_work]
            exact (addWork_mem st3 i).mpr (Or.inr hj1)
          · rw [hst5]
            exact (addExisting_mem st4 i).mpr (Or.inr hj1)
        · exact ih11 j hj2

/-! ## Invariant bundles -/

theorem opCore_proj {o o' : Op} (h : opCore o = opCore o') :
    o.project = o'.project ∧ o.phase = o'.phase ∧ o.shard = o'.shard ∧
      o.runner = o'.runner := by
  simp only [opCore, Prod.mk.injEq] at h
  exact h

theorem stateWF_mono {st st' : BuildState}
    (hm : st'.allOperations = st.allOperations) (hl : st.ops.length ≤ st'.ops.length)
    (h : StateWF st) : StateWF st' := by
  refine ⟨?_, ?_, ?_⟩
  · rw [hm]; exact h.nodupKeys
  · intro k l hk x hx
    rw [hm] at hk
    exact Nat.lt_of_lt_of_le (h.memoBound k l hk x hx) hl
  · intro k k' l l' hne hk hk'
    rw [hm] at hk hk'
    exact h.memoDisj k k' l l' hne hk hk'

theorem listedExisting_mono {st st' : BuildState}
    (hm : st'.allOperations = st.allOperations)
    (he : ∀ x ∈ st.existingOperations, x ∈ st'.existingOperations)
    (h : ListedExisting st) : ListedExisting st' := by
  intro k l hk x hx
  rw [hm] at hk
  exact he x (h k l hk x hx)

theorem entryInv_mono {repo : Repo} {ctx : CreateContext} {st st' : BuildState}
    (hm : st'.allOperations = st.allOperations) (hl : st.ops.length ≤ st'.ops.length)
    (hr : ∀ i, i < st.ops.length → runnerOf st' i = runnerOf st i)
    (h : EntryInv repo ctx st) : EntryInv repo ctx st' := by
  intro p q hp hq hsh hsc l hk
  rw [hm] at hk
  obtain ⟨i, hil, hib, hir⟩ := h p q hp hq hsh hsc l hk
  exact ⟨i, hil, Nat.lt_of_lt_of_le hib hl, by rw [hr i hib]; exact hir⟩

/-! ## The wiring loops -/

theorem wireDeps_spec (repo : Repo) (ctx : CreateContext)
    (resolver : Nat → Nat → BuildState → Option (List Nat × BuildState))
    (hres : ResolveSpec repo ctx resolver) :
    ∀ (pairs : List (Nat × Nat)) (target : Nat) (st st' : BuildState),
      wireDeps resolver pairs target st = some st' →
      target < st.ops.length →
      StepOK st st' ∧
      (∀ i, i < st.ops.length → i ≠ target → depsOf st' i = depsOf st i) ∧
      (∀ pq ∈ pairs, ∃ ld, memoLookup st'.allOperations (keyOf repo pq.1 pq.2) = some ld ∧
        ∀ x ∈ ld, x ∈ depsOf st' target) ∧
      (∀ x, x ∈ depsOf st' target → x ∈ depsOf st target ∨
        ∃ pq ∈ pairs, ∃ ld, memoLookup st'.allOperations (keyOf repo pq.1 pq.2) = some ld ∧
          x ∈ ld) ∧
      (∀ x ∈ depsOf st target, x ∈ depsOf st' target) ∧
      (StateWF st → StateWF st') ∧
      (ListedExisting st → ListedExisting st') ∧
      (GoodInputs repo ctx →
        (∀ pq ∈ pairs, pq.1 < repo.phases.length ∧ pq.2 < repo.projects.length) →
        StateWF st → EntryInv repo ctx st → EntryInv repo ctx st') := by
  intro pairs
  induction pairs with
  | nil =>
      intro target st st' h htl
      simp only [wireDeps] at h
      injection h with h
      subst h
      exact ⟨StepOK.refl st, fun i _ _ => rfl, fun pq hpq => absurd hpq (List.not_mem_nil _),
        fun x hx => Or.inl hx, fun x hx => hx, fun h => h, fun h => h,
        fun _ _ _ h => h⟩
  | cons pq rest ih =>
      intro target st st' h htl
      obtain ⟨p0, q0⟩ := pq
      simp only [wireDeps] at h
      cases hcall : resolver p0 q0 st with
      | none => rw [hcall] at h; exact Option.noConfusion h
      | some res =>
          obtain ⟨l1, s1⟩ := res
          rw [hcall] at h
          obtain ⟨hstep1, hmemo1, hdeps1, hwf1, hle1, hinv1⟩ := hres p0 q0 st l1 s1 hcall
          set s2 := addDependencyList s1 target l1 with hs2
          have htl1 : target < s1.ops.length := Nat.lt_of_lt_of_le htl hstep1.opsLen
          have htl2 : target < s2.ops.length := by
            rw [hs2, addDependencyList_length]; exact htl1
          obtain ⟨ihs, ihdepsne, ihlists, ihsub, ihmono, ihwf, ihle, ihinv⟩ :=
            ih target s2 st' h htl2
          have hstep2 : StepOK s1 s2 := stepOK_addDependencyList s1 target l1
          have hstepall : StepOK st st' :=
            (hstep1.trans hstep2).trans ihs
          have hmemo2 : memoLookup s2.allOperations (keyOf repo p0 q0) = some l1 := by
            rw [hs2, addDependencyList_memo]; exact hmemo1
          have hmemoFinal : memoLookup st'.allOperations (keyOf repo p0 q0) = some l1 :=
            ihs.memoOld _ _ hmemo2
          refine ⟨hstepall, ?_, ?_, ?_, ?_, ?_, ?_, ?_⟩
          · -- deps of non-target old indices unchanged
            intro i hi hit
            have hi1 : i < s1.ops.length := Nat.lt_of_lt_of_le hi hstep1.opsLen
            have hi2 : i < s2.ops.length := by
              rw [hs2, addDependencyList_length]; exact hi1
            rw [ihdepsne i hi2 hit, hs2, addDependencyList_deps_ne _ _ _ hit, hdeps1 i hi]
          · -- every resolved list is wired onto the target
            intro pq2 hpq2
            rcases List.mem_cons.mp hpq2 with h1 | h1
            · refine ⟨l1, by rw [h1]; exact hmemoFinal, ?_⟩
              intro x hx
              have hx2 : x ∈ depsOf s2 target := by
                rw [hs2]
                exact (addDependencyList_deps_mem s1 target l1 htl1).mpr (Or.inr hx)
              exact ihmono x hx2
            · obtain ⟨ld, hld, hsub2⟩ := ihlists pq2 h1
              exact ⟨ld, hld, hsub2⟩
          · -- every dependency of the target traces back to the start or a resolved list
            intro x hx
            rcases ihsub x hx with h1 | ⟨pq2, hpq2, ld, hld, hxld⟩
            · have h2 : x ∈ depsOf s1 target ∨ x ∈ l1 := by
                rw [hs2] at h1
                exact (addDependencyList_deps_mem s1 target l1 htl1).mp h1
              rcases h2 with h3 | h3
              · rw [hdeps1 target htl] at h3
                exact Or.inl h3
              · exact Or.inr ⟨(p0, q0), List.mem_cons_self _ _, l1, hmemoFinal, h3⟩
            · exact Or.inr ⟨pq2, List.mem_cons_of_mem _ hpq2, ld, hld, hxld⟩
          · -- deps of the target only grow
            intro x hx
            refine ihmono x ?_
            rw [hs2]
            refine (addDependencyList_deps_mem s1 target l1 htl1).mpr (Or.inl ?_)
            rw [hdeps1 target htl]
            exact hx
          · -- StateWF
            intro hwf
            refine ihwf ?_
            refine stateWF_mono ?_ ?_ (hwf1 hwf)
            · rw [hs2, addDependencyList_memo]
            · rw [hs2, addDependencyList_length]
          · -- ListedExisting
            intro hle
            refine ihle ?_
            refine listedExisting_mono ?_ ?_ (hle1 hle)
            · rw [hs2, addDependencyList_memo]
            · intro x hx
              rw [hs2, addDependencyList_existing]
              exact hx
          · -- EntryInv
            intro hg hpr hwf hinv
            have h1 := hinv1 hg (hpr (p0, q0) (List.mem_cons_self _ _)).1
              (hpr (p0, q0) (List.mem_cons_self _ _)).2 hwf hinv
            have hwf1' := hwf1 hwf
            have h2 : EntryInv repo ctx s2 := by
              refine entryInv_mono ?_ ?_ ?_ h1
              · rw [hs2, addDependencyList_memo]
              · rw [hs2, addDependencyList_length]
              · intro i _
                rw [hs2]
                show (opAt (addDependencyList s1 target l1) i).runner = runnerOf s1 i
                exact (opCore_proj (addDependencyList_core s1 target l1 i)).2.2.2
            refine ihinv hg (fun pq2 hpq2 => hpr pq2 (List.mem_cons_of_mem _ hpq2)) ?_ h2
            refine stateWF_mono ?_ ?_ hwf1'
            · rw [hs2, addDependencyList_memo]
            · rw [hs2, addDependencyList_length]

/-! ## The unsharded expansion -/

theorem unshardedExpand_spec (repo : Repo) (ctx : CreateContext)
    (resolver : Nat → Nat → BuildState → Option (List Nat × BuildState))
    (hres : ResolveSpec repo ctx resolver) (p q : Nat) (st : BuildState)
    (l : List Nat) (st' : BuildState)
    (hmiss : memoLookup st.allOperations (keyOf repo p q) = none)
    (h : unshardedExpand resolver repo ctx p q (keyOf repo p q) st = some (l, st')) :
    l = [st.ops.length] ∧
    StepOK st st' ∧
    memoLookup st'.allOperations (keyOf repo p q) = some l ∧
    (∀ i, i < st.ops.length → depsOf st' i = depsOf st i) ∧
    opCore (opAt st' st.ops.length) = (q, p, (none : Option (Nat × Nat)),
      if p ∉ ctx.phaseSelection ∨ q ∉ ctx.projectSelection then
        some (nullOperationRunner (keyOf repo p q) OperationStatus.Skipped true)
      else none) ∧
    (StateWF st → StateWF st') ∧
    (ListedExisting st → ListedExisting st') ∧
    (GoodInputs repo ctx → p < repo.phases.length → q < repo.projects.length →
      StateWF st → EntryInv repo ctx st → EntryInv repo ctx st') := by
  simp only [unshardedExpand] at h
  set i := st.ops.length with hidef
  set key := keyOf repo p q with hkeydef
  set st1 := (newOperation st q p none).2 with hst1
  set st2 :=
    if p ∉ ctx.phaseSelection ∨ q ∉ ctx.projectSelection then
      setRunner st1 i (nullOperationRunner key OperationStatus.Skipped true)
    else if q ∈ ctx.changedProjects then addWork st1 i else st1 with hst2
  set st4 := addExisting { st2 with allOperations := memoSet st2.allOperations key [i] } i
    with hst4
  -- basic facts about st2
  have hlen1 : st1.ops.length = st.ops.length + 1 := newOperation_length st q p none
  have hlen2 : st2.ops.length = st.ops.length + 1 := by
    rw [hst2]
    by_cases h1 : p ∉ ctx.phaseSelection ∨ q ∉ ctx.projectSelection
    · rw [if_pos h1, setRunner_length, hlen1]
    · rw [if_neg h1]
      by_cases h2 : q ∈ ctx.changedProjects
      · rw [if_pos h2, addWork_ops, hlen1]
      · rw [if_neg h2, hlen1]
  have hmemo2 : st2.allOperations = st.allOperations := by
    rw [hst2]
    by_cases h1 : p ∉ ctx.phaseSelection ∨ q ∉ ctx.projectSelection
    · rw [if_pos h1, setRunner_memo, hst1, newOperation_memo]
    · rw [if_neg h1]
      by_cases h2 : q ∈ ctx.changedProjects
      · rw [if_pos h2, addWork_memo, hst1, newOperation_memo]
      · rw [if_neg h2, hst1, newOperation_memo]
  have hexist2 : st2.existingOperations = st.existingOperations := by
    rw [hst2]
    by_cases h1 : p ∉ ctx.phaseSelection ∨ q ∉ ctx.projectSelection
    · rw [if_pos h1, setRunner_existing, hst1, newOperation_existing]
    · rw [if_neg h1]
      by_cases h2 : q ∈ ctx.changedProjects
      · rw [if_pos h2, addWork_existing, hst1, newOperation_existing]
      · rw [if_neg h2, hst1, newOperation_existing]
  have hwork2 : ∀ x ∈ st.operationsWithWork, x ∈ st2.operationsWithWork := by
    intro x hx
    rw [hst2]
    by_cases h1 : p ∉ ctx.phaseSelection ∨ q ∉ ctx.projectSelection
    · rw [if_pos h1, setRunner_work, hst1, newOperation_work]
      exact hx
    · rw [if_neg h1]
      by_cases h2 : q ∈ ctx.changedProjects
      · rw [if_pos h2]
        refine (addWork_mem st1 i).mpr (Or.inl ?_)
        rw [hst1, newOperation_work]
        exact hx
      · rw [if_neg h2, hst1, newOperation_work]
        exact hx
  have hopAt2old : ∀ j, j < st.ops.length → opAt st2 j = opAt st j := by
    intro j hj
    have hji : j ≠ i := by omega
    rw [hst2]
    by_cases h1 : p ∉ ctx.phaseSelection ∨ q ∉ ctx.projectSelection
    · rw [if_pos h1, setRunner_opAt_ne _ _ _ hji, hst1, newOperation_opAt_old _ _ _ _ hj]
    · rw [if_neg h1]
      by_cases h2 : q ∈ ctx.changedProjects
      · rw [if_pos h2]
        show opAt st1 j = opAt st j
        rw [hst1, newOperation_opAt_old _ _ _ _ hj]
      · rw [if_neg h2, hst1, newOperation_opAt_old _ _ _ _ hj]
  have hopAt1i : opAt st1 i =
      { project := q, phase := p, shard := none, runner := none,
        dependencies := [], consumers := [] } := by
    rw [hst1, hidef]
    exact newOperation_opAt_new st q p none
  have hopAt2i : opAt st2 i =
      { project := q, phase := p, shard := none,
        runner :=
          if p ∉ ctx.phaseSelection ∨ q ∉ ctx.projectSelection then
            some (nullOperationRunner key OperationStatus.Skipped true)
          else none,
        dependencies := [], consumers := [] } := by
    rw [hst2]
    by_cases h1 : p ∉ ctx.phaseSelection ∨ q ∉ ctx.projectSelection
    · rw [if_pos h1, if_pos h1, setRunner_opAt_self _ _ _ (by omega), hopAt1i]
    · rw [if_neg h1, if_neg h1]
      by_cases h2 : q ∈ ctx.changedProjects
      · rw [if_pos h2]
        show opAt st1 i = _
        rw [hopAt1i]
      · rw [if_neg h2, hopAt1i]
  -- facts about st4
  have hops4 : st4.ops = st2.ops := rfl
  have hlen4 : st4.ops.length = st.ops.length + 1 := by
    rw [hops4]; exact hlen2
  have hmemo4self : memoLookup st4.allOperations key = some [i] := by
    rw [hst4]
    show memoLookup (memoSet st2.allOperations key [i]) key = some [i]
    exact memoLookup_memoSet_self _ _ _
  have hmemo4ne : ∀ k', k' ≠ key → memoLookup st4.allOperations k' =
      memoLookup st.allOperations k' := by
    intro k' hk'
    rw [hst4]
    show memoLookup (memoSet st2.allOperations key [i]) k' = memoLookup st.allOperations k'
    rw [memoLookup_memoSet_ne _ _ _ _ hk', hmemo2]
  have hexist4 : ∀ x, x ∈ st4.existingOperations ↔ x ∈ st.existingOperations ∨ x = i := by
    intro x
    rw [hst4]
    rw [addExisting_mem]
    show x ∈ st2.existingOperations ∨ x = i ↔ _
    rw [hexist2]
  have hwork4 : ∀ x ∈ st.operationsWithWork, x ∈ st4.operationsWithWork := by
    intro x hx
    rw [hst4]
    show x ∈ st2.operationsWithWork
    exact hwork2 x hx
  have hstep4 : StepOK st st4 := by
    refine ⟨by omega, ?_, ?_, ?_, hwork4, ?_⟩
    · intro j hj
      show opCore (opAt st2 j) = opCore (opAt st j)
      rw [hopAt2old j hj]
    · intro k' l' hl'
      have hk' : k' ≠ key := by
        intro he
        rw [he, hmiss] at hl'
        exact Option.noConfusion hl'
      rw [hmemo4ne k' hk']
      exact hl'
    · intro k' l' hl'
      by_cases hk' : k' = key
      · subst hk'
        rw [hmemo4self] at hl'
        injection hl' with hl'
        subst hl'
        right
        intro x hx
        rw [List.mem_singleton] at hx
        omega
      · rw [hmemo4ne k' hk'] at hl'
        exact Or.inl hl'
    · intro x hx
      exact (hexist4 x).mpr (Or.inl hx)
  have hwf4 : StateWF st → StateWF st4 := by
    intro hwf
    refine ⟨?_, ?_, ?_⟩
    · rw [hst4]
      show ((memoSet st2.allOperations key [i]).map Prod.fst).Nodup
      refine memoSet_keys_nodup ?_
      rw [hmemo2]
      exact hwf.nodupKeys
    · intro k' l' hl' x hx
      by_cases hk' : k' = key
      · subst hk'
        rw [hmemo4self] at hl'
        injection hl' with hl'
        subst hl'
        rw [List.mem_singleton] at hx
        subst hx
        omega
      · rw [hmemo4ne k' hk'] at hl'
        have := hwf.memoBound k' l' hl' x hx
        omega
    · intro k1 k2 l1 l2 hne h1 h2 x hx
      by_cases hk1 : k1 = key
      · subst hk1
        rw [hmemo4self] at h1
        injection h1 with h1
        subst h1
        rw [List.mem_singleton] at hx
        subst hx
        have hk2 : k2 ≠ key := fun he => hne he.symm
        rw [hmemo4ne k2 hk2] at h2
        intro hmem
        have := hwf.memoBound k2 l2 h2 _ hmem
        omega
      · rw [hmemo4ne k1 hk1] at h1
        by_cases hk2 : k2 = key
        · subst hk2
          rw [hmemo4self] at h2
          injection h2 with h2
          subst h2
          intro hmem
          rw [List.mem_singleton] at hmem
          subst hmem
          have := hwf.memoBound k1 l1 h1 _ hx
          omega
        · rw [hmemo4ne k2 hk2] at h2
          exact hwf.memoDisj k1 k2 l1 l2 hne h1 h2 x hx
  have hle4 : ListedExisting st → ListedExisting st4 := by
    intro hle k' l' hl' x hx
    by_cases hk' : k' = key
    · subst hk'
      rw [hmemo4self] at hl'
      injection hl' with hl'
      subst hl'
      rw [List.mem_singleton] at hx
      subst hx
      exact (hexist4 i).mpr (Or.inr rfl)
    · rw [hmemo4ne k' hk'] at hl'
      exact (hexist4 x).mpr (Or.inl (hle k' l' hl' x hx))
  have hrunner4 : ∀ j, j < st.ops.length → runnerOf st4 j = runnerOf st j := by
    intro j hj
    show (opAt st2 j).runner = runnerOf st j
    rw [hopAt2old j hj]
    rfl
  have hinv4 : GoodInputs repo ctx → p < repo.phases.length → q < repo.projects.length →
      EntryInv repo ctx st → EntryInv repo ctx st4 := by
    intro hg hp hq hinv p' q' hp' hq' hsh' hsc' l' hl'
    by_cases hk' : keyOf repo p' q' = key
    · obtain ⟨hpe, hqe⟩ := hg.keyInj p' hp' p hp q' hq' q hq (by rw [hk', hkeydef])
      subst hpe
      subst hqe
      rw [hk', hmemo4self] at hl'
      injection hl' with hl'
      subst hl'
      refine ⟨i, rfl, by omega, ?_⟩
      show (opAt st4 i).runner = _
      show (opAt st2 i).runner = _
      rw [hopAt2i]
      show (if p' ∉ ctx.phaseSelection ∨ q' ∉ ctx.projectSelection then
        some (nullOperationRunner key OperationStatus.Skipped true) else none) = _
      rw [if_pos hsc', hk']
    · rw [hmemo4ne _ hk'] at hl'
      obtain ⟨j, hjl, hjb, hjr⟩ := hinv p' q' hp' hq' hsh' hsc' l' hl'
      refine ⟨j, hjl, by omega, ?_⟩
      rw [hrunner4 j hjb]
      exact hjr
  -- now the two wiring phases
  cases hw1 : wireDeps resolver (selfPairs repo p q) i st4 with
  | none =>
      rw [hw1] at h
      exact Option.noConfusion h
  | some st5 =>
      rw [hw1] at h
      have h2 : (match wireDeps resolver (upstreamPairs repo p q) i st5 with
        | none => none
        | some st6 => some (([i] : List Nat), st6)) = some (l, st') := h
      cases hw2 : wireDeps resolver (upstreamPairs repo p q) i st5 with
      | none =>
          rw [hw2] at h2
          exact Option.noConfusion h2
      | some st6 =>
          rw [hw2] at h2
          injection h2 with h3
          injection h3 with hl hst6
          subst hst6
          have hti4 : i < st4.ops.length := by omega
          obtain ⟨w1step, w1deps, _, _, _, w1wf, w1le, w1inv⟩ :=
            wireDeps_spec repo ctx resolver hres (selfPairs repo p q) i st4 st5 hw1 hti4
          have hti5 : i < st5.ops.length := Nat.lt_of_lt_of_le hti4 w1step.opsLen
          obtain ⟨w2step, w2deps, _, _, _, w2wf, w2le, w2inv⟩ :=
            wireDeps_spec repo ctx resolver hres (upstreamPairs repo p q) i st5 st6 hw2 hti5
          refine ⟨hl.symm, (hstep4.trans w1step).trans w2step, ?_, ?_, ?_, ?_, ?_, ?_⟩
          · rw [← hl]
            exact w2step.memoOld _ _ (w1step.memoOld _ _ hmemo4self)
          · intro j hj
            have hj4 : j < st4.ops.length := by omega
            have hj5 : j < st5.ops.length := Nat.lt_of_lt_of_le hj4 w1step.opsLen
            have hji : j ≠ i := by omega
            rw [w2deps j hj5 hji, w1deps j hj4 hji]
            show depsOf st2 j = depsOf st j
            unfold depsOf
            rw [hopAt2old j hj]
          · have hc1 : opCore (opAt st6 i) = opCore (opAt st4 i) := by
              rw [w2step.opsCore i hti5, w1step.opsCore i hti4]
            rw [hc1]
            show opCore (opAt st2 i) = _
            rw [hopAt2i]
            rfl
          · intro hwf
            exact w2wf (w1wf (hwf4 hwf))
          · intro hle
            exact w2le (w1le (hle4 hle))
          · intro hg hp hq hwf hinv
            have hwf4' := hwf4 hwf
            have hinv4' := hinv4 hg hp hq hinv
            have hpr1 : ∀ pq ∈ selfPairs repo p q,
                pq.1 < repo.phases.length ∧ pq.2 < repo.projects.length := by
              intro pq hpq
              obtain ⟨dp, hdp, hpq2⟩ := List.mem_map.mp hpq
              rw [← hpq2]
              exact ⟨(hg.phasesWF p hp).1 dp hdp, hq⟩
            have hpr2 : ∀ pq ∈ upstreamPairs repo p q,
                pq.1 < repo.phases.length ∧ pq.2 < repo.projects.length := by
              intro pq hpq
              obtain ⟨dp, hdp, hdq⟩ := List.mem_flatMap.mp hpq
              obtain ⟨dq, hdqm, hpq2⟩ := List.mem_map.mp hdq
              rw [← hpq2]
              exact ⟨(hg.phasesWF p hp).2 dp hdp, hg.projectsWF q hq dq hdqm⟩
            have h5 := w1inv hg hpr1 hwf4' hinv4'
            exact w2inv hg hpr2 (w1wf hwf4') h5

/-! ## The sharded expansion -/

theorem shardedExpand_spec (repo : Repo) (ctx : CreateContext)
    (resolver : Nat → Nat → BuildState → Option (List Nat × BuildState))
    (hres : ResolveSpec repo ctx resolver) (p q : Nat) (st : BuildState)
    (l : List Nat) (st' : BuildState)
    (hmiss : memoLookup st.allOperations (keyOf repo p q) = none)
    (N : Nat) (hN : 1 < N) (hs : getShards repo p q = some N)
    (h : shardedExpand resolver repo p q (keyOf repo p q) N st = some (l, st')) :
    StepOK st st' ∧
    memoLookup st'.allOperations (keyOf repo p q) = some l ∧
    (∀ i, i < st.ops.length → depsOf st' i = depsOf st i) ∧
    (StateWF st → StateWF st') ∧
    (ListedExisting st → ListedExisting st') ∧
    (GoodInputs repo ctx → p < repo.phases.length → q < repo.projects.length →
      StateWF st → EntryInv repo ctx st → EntryInv repo ctx st') ∧
    (∃ base, st.ops.length + 2 ≤ base ∧
      l = st.ops.length :: (st.ops.length + 1) :: List.range' base N ∧
      opCore (opAt st' st.ops.length) =
        (q, p, (none : Option (Nat × Nat)), some buildCacheRestoreRunner) ∧
      opCore (opAt st' (st.ops.length + 1)) =
        (q, p, (none : Option (Nat × Nat)), some buildCacheSaveRunner) ∧
      (∀ j, j < N → opAt st' (base + j) =
        { project := q, phase := p, shard := some (j + 1, N), runner := none,
          dependencies := [st.ops.length], consumers := [st.ops.length + 1] }) ∧
      (StateWF st → ∀ k' l', k' ≠ keyOf repo p q →
        memoLookup st'.allOperations k' = some l' → ∀ x ∈ l', x < base) ∧
      (StateWF st → ∀ k' l', k' ≠ keyOf repo p q →
        memoLookup st'.allOperations k' = some l' →
        ∀ x ∈ l', x ≠ st.ops.length ∧ x ≠ st.ops.length + 1) ∧
      ((∀ pq ∈ selfPairs repo p q, keyOf repo pq.1 pq.2 ≠ keyOf repo p q) →
        (∀ pq ∈ selfPairs repo p q, ∃ ld,
          memoLookup st'.allOperations (keyOf repo pq.1 pq.2) = some ld ∧
          ∀ x ∈ ld, x ∈ depsOf st' st.ops.length) ∧
        (∀ x ∈ depsOf st' st.ops.length, ∃ pq ∈ selfPairs repo p q, ∃ ld,
          memoLookup st'.allOperations (keyOf repo pq.1 pq.2) = some ld ∧ x ∈ ld)) ∧
      ((∀ pq ∈ upstreamPairs repo p q, keyOf repo pq.1 pq.2 ≠ keyOf repo p q) →
        (∀ pq ∈ upstreamPairs repo p q, ∃ ld,
          memoLookup st'.allOperations (keyOf repo pq.1 pq.2) = some ld ∧
          ∀ x ∈ ld, x ∈ depsOf st' (st.ops.length + 1)) ∧
        (∀ x ∈ depsOf st' (st.ops.length + 1),
          (∃ pq ∈ upstreamPairs repo p q, ∃ ld,
            memoLookup st'.allOperations (keyOf repo pq.1 pq.2) = some ld ∧ x ∈ ld) ∨
          x ∈ List.range' base N)) ∧
      (∀ j ∈ List.range' base N, j ∈ depsOf st' (st.ops.length + 1))) := by
  simp only [shardedExpand] at h
  set key := keyOf repo p q with hkeydef
  set r := st.ops.length with hrdef
  set st2 := setRunner (newOperation st q p none).2 r buildCacheRestoreRunner with hst2
  set sv := st2.ops.length with hsvdef
  set st4 := setRunner (newOperation st2 q p none).2 sv buildCacheSaveRunner with hst4
  set st5 := addWork st4 r with hst5
  set st6 := addWork st5 sv with hst6
  set st7 := addExisting st6 sv with hst7
  set st8 := addExisting st7 r with hst8
  have hlen2 : st2.ops.length = st.ops.length + 1 := by
    rw [hst2, setRunner_length, newOperation_length]
  have hsv : sv = st.ops.length + 1 := by rw [hsvdef, hlen2]
  have hlen4 : st4.ops.length = st.ops.length + 2 := by
    rw [hst4, setRunner_length, newOperation_length, hlen2]
  have hops8 : st8.ops = st4.ops := by
    rw [hst8, hst7, hst6, hst5, addExisting_ops, addExisting_ops, addWork_ops, addWork_ops]
  have hlen8 : st8.ops.length = st.ops.length + 2 := by rw [hops8]; exact hlen4
  have hmemo8 : st8.allOperations = st.allOperations := by
    rw [hst8, hst7, hst6, hst5, addExisting_memo, addExisting_memo, addWork_memo, addWork_memo,
      hst4, setRunner_memo, newOperation_memo, hst2, setRunner_memo, newOperation_memo]
  have hopAt2r : opAt st2 r =
      { project := q, phase := p, shard := none, runner := some buildCacheRestoreRunner,
        dependencies := [], consumers := [] } := by
    rw [hst2, setRunner_opAt_self _ _ _ (by rw [newOperation_length]; omega)]
    rw [hrdef, newOperation_opAt_new]
  have hopAt4r : opAt st4 r = opAt st2 r := by
    rw [hst4, setRunner_opAt_ne _ _ _ (by omega : r ≠ sv),
      newOperation_opAt_old _ _ _ _ (by omega)]
  have hopAt4sv : opAt st4 sv =
      { project := q, phase := p, shard := none, runner := some buildCacheSaveRunner,
        dependencies := [], consumers := [] } := by
    rw [hst4, setRunner_opAt_self _ _ _ (by rw [newOperation_length]; omega)]
    rw [hsvdef, newOperation_opAt_new]
  have hopAt4old : ∀ j, j < st.ops.length → opAt st4 j = opAt st j := by
    intro j hj
    rw [hst4, setRunner_opAt_ne _ _ _ (by omega : j ≠ sv),
      newOperation_opAt_old _ _ _ _ (by omega), hst2,
      setRunner_opAt_ne _ _ _ (by omega : j ≠ r), newOperation_opAt_old _ _ _ _ hj]
  have hopAt8 : ∀ j, opAt st8 j = opAt st4 j := by
    intro j
    show st8.ops.getD j default = st4.ops.getD j default
    rw [hops8]
  have hwork8 : ∀ x, x ∈ st8.operationsWithWork ↔
      x ∈ st.operationsWithWork ∨ x = r ∨ x = sv := by
    intro x
    rw [hst8, hst7]
    show x ∈ st6.operationsWithWork ↔ _
    rw [hst6, addWork_mem, hst5, addWork_mem, hst4, setRunner_work, newOperation_work, hst2,
      setRunner_work, newOperation_work]
    tauto
  have hexist8 : ∀ x, x ∈ st8.existingOperations ↔
      x ∈ st.existingOperations ∨ x = sv ∨ x = r := by
    intro x
    rw [hst8, addExisting_mem, hst7, addExisting_mem, hst6, hst5, addWork_existing,
      addWork_existing, hst4, setRunner_existing, newOperation_existing, hst2,
      setRunner_existing, newOperation_existing]
    tauto
  have hstep8 : StepOK st st8 := by
    refine ⟨by omega, ?_, ?_, ?_, ?_, ?_⟩
    · intro j hj
      rw [hopAt8, hopAt4old j hj]
    · intro k' l' hl'
      rw [hmemo8]; exact hl'
    · intro k' l' hl'
      rw [hmemo8] at hl'; exact Or.inl hl'
    · intro x hx
      exact (hwork8 x).mpr (Or.inl hx)
    · intro x hx
      exact (hexist8 x).mpr (Or.inl hx)
  have hwf8 : StateWF st → StateWF st8 :=
    fun hwf => stateWF_mono hmemo8 (by omega) hwf
  have hle8 : ListedExisting st → ListedExisting st8 :=
    fun hle => listedExisting_mono hmemo8 (fun x hx => (hexist8 x).mpr (Or.inl hx)) hle
  have hrunner8 : ∀ j, j < st.ops.length → runnerOf st8 j = runnerOf st j := by
    intro j hj
    show (opAt st8 j).runner = (opAt st j).runner
    rw [hopAt8, hopAt4old j hj]
  have hinv8 : EntryInv repo ctx st → EntryInv repo ctx st8 :=
    fun hinv => entryInv_mono hmemo8 (by omega) hrunner8 hinv
  have hdeps8r : depsOf st8 r = [] := by
    show (opAt st8 r).dependencies = []
    rw [hopAt8, hopAt4r, hopAt2r]
  have hdeps8sv : depsOf st8 sv = [] := by
    show (opAt st8 sv).dependencies = []
    rw [hopAt8, hopAt4sv]
  -- the two wiring phases
  cases hw1 : wireDeps resolver (selfPairs repo p q) r st8 with
  | none =>
      rw [hw1] at h
      exact Option.noConfusion h
  | some st9 =>
      rw [hw1] at h
      have h2 : (match wireDeps resolver (upstreamPairs repo p q) sv st9 with
        | none => none
        | some st10 =>
            some ((r :: sv :: (createShards q p N r sv N st10).1 : List Nat),
              { (createShards q p N r sv N st10).2 with
                allOperations :=
                  memoSet (createShards q p N r sv N st10).2.allOperations key
                    (r :: sv :: (createShards q p N r sv N st10).1) })) =
          some (l, st') := h
      cases hw2 : wireDeps resolver (upstreamPairs repo p q) sv st9 with
      | none =>
          rw [hw2] at h2
          exact Option.noConfusion h2
      | some st10 =>
          rw [hw2] at h2
          injection h2 with h3
          injection h3 with hl hstfin
          have hr8 : r < st8.ops.length := by omega
          obtain ⟨w1step, w1deps, w1lists, w1sub, w1mono, w1wf, w1le, w1inv⟩ :=
            wireDeps_spec repo ctx resolver hres (selfPairs repo p q) r st8 st9 hw1 hr8
          have h91 : st8.ops.length ≤ st9.ops.length := w1step.opsLen
          have hsv9 : sv < st9.ops.length := by omega
          obtain ⟨w2step, w2deps, w2lists, w2sub, w2mono, w2wf, w2le, w2inv⟩ :=
            wireDeps_spec repo ctx resolver hres (upstreamPairs repo p q) sv st9 st10 hw2 hsv9
          have h92 : st9.ops.length ≤ st10.ops.length := w2step.opsLen
          have hr10 : r < st10.ops.length := by omega
          have hsv10 : sv < st10.ops.length := by omega
          have hlen10 : st.ops.length + 2 ≤ st10.ops.length := by omega
          obtain ⟨c1, c2, c3, c4, c5, c6, c7, c8, c9, c10, c11⟩ :=
            createShards_spec q p N r sv N st10 (Nat.le_refl N) hr10 hsv10
          set st11 := (createShards q p N r sv N st10).2 with hst11
          set ids := (createShards q p N r sv N st10).1 with hids
          set base := st10.ops.length with hbase
          have hops12 : st'.ops = st11.ops := by rw [← hstfin]
          have hmemo12 : st'.allOperations = memoSet st11.allOperations key l := by
            rw [← hstfin, ← hl]
          have hwork12 : st'.operationsWithWork = st11.operationsWithWork := by
            rw [← hstfin]
          have hexist12 : st'.existingOperations = st11.existingOperations := by
            rw [← hstfin]
          have hopAt12 : ∀ j, opAt st' j = opAt st11 j := by
            intro j
            show st'.ops.getD j default = st11.ops.getD j default
            rw [hops12]
          have hdeps12 : ∀ j, depsOf st' j = depsOf st11 j := by
            intro j
            show (opAt st' j).dependencies = (opAt st11 j).dependencies
            rw [hopAt12]
          have hlform : l = r :: sv :: List.range' base N := by
            rw [← hl, c1]
          have hlelem : ∀ x ∈ l, r ≤ x := by
            intro x hx
            rw [hlform] at hx
            rcases List.mem_cons.mp hx with h1 | hx2
            · omega
            · rcases List.mem_cons.mp hx2 with h1 | hx3
              · omega
              · have := List.mem_range'_1.mp hx3
                omega
          have hstepCS : StepOK st10 st11 := by
            refine ⟨by rw [c2]; omega, c5, ?_, ?_, c9, c10⟩
            · intro k' l' hl'
              rw [c3]; exact hl'
            · intro k' l' hl'
              rw [c3] at hl'; exact Or.inl hl'
          have hstep11 : StepOK st st11 :=
            ((hstep8.trans w1step).trans w2step).trans hstepCS
          have hstep' : StepOK st st' := by
            have hthis := hstep11.trans_memoSet hmiss hlelem
            have he : ({ st11 with allOperations := memoSet st11.allOperations key l } :
                BuildState) = st' := by
              rw [← hl]
              exact hstfin
            rw [he] at hthis
            exact hthis
          have hmemoSelf : memoLookup st'.allOperations key = some l := by
            rw [hmemo12]
            exact memoLookup_memoSet_self _ _ _
          have hmemoNe : ∀ k', k' ≠ key → memoLookup st'.allOperations k' =
              memoLookup st10.allOperations k' := by
            intro k' hk'
            rw [hmemo12, memoLookup_memoSet_ne _ _ _ _ hk', c3]
          have hsplit10 : ∀ k' l', memoLookup st10.allOperations k' = some l' →
              memoLookup st.allOperations k' = some l' ∨
                ∀ x ∈ l', st.ops.length + 2 ≤ x := by
            intro k' l' hl'
            rcases w2step.memoFresh k' l' hl' with h1 | h1
            · rcases w1step.memoFresh k' l' h1 with hA | hA
              · rw [hmemo8] at hA
                exact Or.inl hA
              · right
                intro x hx
                have := hA x hx
                omega
            · right
              intro x hx
              have := h1 x hx
              omega
          refine ⟨hstep', hmemoSelf, ?_, ?_, ?_, ?_, ?_⟩
          · -- dependencies of pre-existing operations unchanged
            intro j hj
            rw [hdeps12, c4 j (by omega) (by omega), w2deps j (by omega) (by omega),
              w1deps j (by omega) (by omega)]
            show (opAt st8 j).dependencies = (opAt st j).dependencies
            rw [hopAt8, hopAt4old j hj]
          · -- StateWF
            intro hwf
            have hwf10 : StateWF st10 := w2wf (w1wf (hwf8 hwf))
            have hwf11 : StateWF st11 := stateWF_mono c3 (by rw [c2]; omega) hwf10
            refine ⟨?_, ?_, ?_⟩
            · rw [hmemo12]
              exact memoSet_keys_nodup hwf11.nodupKeys
            · intro k' l' hl' x hx
              by_cases hk' : k' = key
              · subst hk'
                rw [hmemoSelf] at hl'
                injection hl' with hl'
                subst hl'
                rw [hlform] at hx
                rw [hops12, c2]
                rcases List.mem_cons.mp hx with h1 | hx2
                · omega
                · rcases List.mem_cons.mp hx2 with h1 | hx3
                  · omega
                  · have := List.mem_range'_1.mp hx3
                    omega
              · rw [hmemoNe k' hk'] at hl'
                have := hwf10.memoBound k' l' hl' x hx
                rw [hops12, c2]
                omega
            · intro k1 k2 l1 l2 hne h1 h2 x hx
              by_cases hk1 : k1 = key
              · subst hk1
                rw [hmemoSelf] at h1
                injection h1 with h1
                subst h1
                have hk2 : k2 ≠ key := fun he => hne he.symm
                rw [hmemoNe k2 hk2] at h2
                intro hmem
                rw [hlform] at hx
                rcases hsplit10 k2 l2 h2 with hold | hfresh
                · have hb := hwf.memoBound k2 l2 hold x hmem
                  rcases List.mem_cons.mp hx with he1 | hx2
                  · omega
                  · rcases List.mem_cons.mp hx2 with he1 | hx3
                    · omega
                    · have := List.mem_range'_1.mp hx3
                      omega
                · have hfr := hfresh x hmem
                  have hb := hwf10.memoBound k2 l2 h2 x hmem
                  rcases List.mem_cons.mp hx with he1 | hx2
                  · omega
                  · rcases List.mem_cons.mp hx2 with he1 | hx3
                    · omega
                    · have := List.mem_range'_1.mp hx3
                      omega
              · rw [hmemoNe k1 hk1] at h1
                by_cases hk2 : k2 = key
                · subst hk2
                  rw [hmemoSelf] at h2
                  injection h2 with h2
                  subst h2
                  intro hmem
                  rw [hlform] at hmem
                  rcases hsplit10 k1 l1 h1 with hold | hfresh
                  · have hb := hwf.memoBound k1 l1 hold x hx
                    rcases List.mem_cons.mp hmem with he1 | hm2
                    · omega
                    · rcases List.mem_cons.mp hm2 with he1 | hm3
                      · omega
                      · have := List.mem_range'_1.mp hm3
                        omega
                  · have hfr := hfresh x hx
                    have hb := hwf10.memoBound k1 l1 h1 x hx
                    rcases List.mem_cons.mp hmem with he1 | hm2
                    · omega
                    · rcases List.mem_cons.mp hm2 with he1 | hm3
                      · omega
                      · have := List.mem_range'_1.mp hm3
                        omega
                · rw [hmemoNe k2 hk2] at h2
                  exact hwf10.memoDisj k1 k2 l1 l2 hne h1 h2 x hx
          · -- ListedExisting
            intro hle
            have hle10 : ListedExisting st10 := w2le (w1le (hle8 hle))
            intro k' l' hl' x hx
            by_cases hk' : k' = key
            · subst hk'
              rw [hmemoSelf] at hl'
              injection hl' with hl'
              subst hl'
              rw [hlform] at hx
              rw [hexist12]
              rcases List.mem_cons.mp hx with h1 | hx2
              · exact c10 x (w2step.existMono x (w1step.existMono x
                  ((hexist8 x).mpr (Or.inr (Or.inr h1)))))
              · rcases List.mem_cons.mp hx2 with h1 | hx3
                · exact c10 x (w2step.existMono x (w1step.existMono x
                    ((hexist8 x).mpr (Or.inr (Or.inl h1)))))
                · exact (c11 x hx3).2
            · rw [hmemoNe k' hk'] at hl'
              rw [hexist12]
              exact c10 x (hle10 k' l' hl' x hx)
          · -- EntryInv
            intro hg hp hq hwf hinv
            have hwf8' := hwf8 hwf
            have hpr1 : ∀ pq ∈ selfPairs repo p q,
                pq.1 < repo.phases.length ∧ pq.2 < repo.projects.length := by
              intro pq hpq
              obtain ⟨dp, hdp, hpq2⟩ := List.mem_map.mp hpq
              rw [← hpq2]
              exact ⟨(hg.phasesWF p hp).1 dp hdp, hq⟩
            have hpr2 : ∀ pq ∈ upstreamPairs repo p q,
                pq.1 < repo.phases.length ∧ pq.2 < repo.projects.length := by
              intro pq hpq
              obtain ⟨dp, hdp, hdq⟩ := List.mem_flatMap.mp hpq
              obtain ⟨dq, hdqm, hpq2⟩ := List.mem_map.mp hdq
              rw [← hpq2]
              exact ⟨(hg.phasesWF p hp).2 dp hdp, hg.projectsWF q hq dq hdqm⟩
            have hinv9 := w1inv hg hpr1 hwf8' (hinv8 hinv)
            have hinv10 := w2inv hg hpr2 (w1wf hwf8') hinv9
            have hinv11 : EntryInv repo ctx st11 := by
              refine entryInv_mono c3 (by rw [c2]; omega) ?_ hinv10
              intro j hj
              show (opAt st11 j).runner = (opAt st10 j).runner
              exact (opCore_proj (c5 j hj)).2.2.2
            intro p' q' hp' hq' hsh' hsc' l' hl'
            by_cases hk' : keyOf repo p' q' = key
            · obtain ⟨hpe, hqe⟩ := hg.keyInj p' hp' p hp q' hq' q hq (by rw [hk', hkeydef])
              subst hpe
              subst hqe
              rw [hs] at hsh'
              simp only [isSharded] at hsh'
              rw [decide_eq_false_iff_not] at hsh'
              exact absurd hN hsh'
            · rw [hmemoNe _ hk'] at hl'
              have hl3 : memoLookup st11.allOperations (keyOf repo p' q') = some l' := by
                rw [c3]
                exact hl'
              obtain ⟨j, hjl, hjb, hjr⟩ := hinv11 p' q' hp' hq' hsh' hsc' l' hl3
              refine ⟨j, hjl, by rw [hops12]; exact hjb, ?_⟩
              show (opAt st' j).runner = _
              rw [hopAt12]
              exact hjr
          · -- structural description
            have hsvr : r + 1 = sv := hsv.symm
            refine ⟨base, by omega, by rw [hlform, hsv], ?_, ?_, ?_, ?_, ?_, ?_, ?_, ?_⟩
            · -- restore core
              rw [hopAt12]
              have e1 : opCore (opAt st11 r) = opCore (opAt st10 r) := c5 r hr10
              have e2 : opCore (opAt st10 r) = opCore (opAt st9 r) :=
                w2step.opsCore r (by omega)
              have e3 : opCore (opAt st9 r) = opCore (opAt st8 r) :=
                w1step.opsCore r (by omega)
              rw [e1, e2, e3, hopAt8, hopAt4r, hopAt2r]
              rfl
            · -- save core
              rw [hsvr, hopAt12]
              have e1 : opCore (opAt st11 sv) = opCore (opAt st10 sv) := c5 sv hsv10
              have e2 : opCore (opAt st10 sv) = opCore (opAt st9 sv) :=
                w2step.opsCore sv hsv9
              have e3 : opCore (opAt st9 sv) = opCore (opAt st8 sv) :=
                w1step.opsCore sv (by omega)
              rw [e1, e2, e3, hopAt8, hopAt4sv]
              rfl
            · -- shard operations
              intro j hj
              rw [hopAt12, c8 j hj]
              have he : N - N + 1 + j = j + 1 := by omega
              rw [he, hsvr]
            · -- other entries are bounded by base
              intro hwf k' l' hk' hl'
              have hwf10 : StateWF st10 := w2wf (w1wf (hwf8 hwf))
              rw [hmemoNe k' hk'] at hl'
              exact hwf10.memoBound k' l' hl'
            · -- other entries avoid the restore and save nodes
              intro hwf k' l' hk' hl' x hx
              rw [hmemoNe k' hk'] at hl'
              rcases hsplit10 k' l' hl' with hold | hfresh
              · have := hwf.memoBound k' l' hold x hx
                omega
              · have := hfresh x hx
                omega
            · -- self wiring lands on the restore node
              intro hks
              have hdepsr : depsOf st' r = depsOf st9 r := by
                rw [hdeps12, c4 r hr10 (by omega), w2deps r (by omega) (by omega)]
              constructor
              · intro pq hpq
                obtain ⟨ld, hld, hsub⟩ := w1lists pq hpq
                refine ⟨ld, ?_, ?_⟩
                · rw [hmemoNe _ (hks pq hpq)]
                  exact w2step.memoOld _ _ hld
                · intro x hx
                  rw [hdepsr]
                  exact hsub x hx
              · intro x hx
                rw [hdepsr] at hx
                rcases w1sub x hx with h1 | ⟨pq, hpq, ld, hld, hxld⟩
                · rw [hdeps8r] at h1
                  exact absurd h1 (List.not_mem_nil x)
                · refine ⟨pq, hpq, ld, ?_, hxld⟩
                  rw [hmemoNe _ (hks pq hpq)]
                  exact w2step.memoOld _ _ hld
            · -- upstream wiring lands on the save node
              intro hku
              have hdepssv : ∀ x, x ∈ depsOf st' sv ↔
                  x ∈ depsOf st10 sv ∨ x ∈ List.range' base N := by
                intro x
                rw [hdeps12]
                exact c7 x
              rw [hsvr]
              constructor
              · intro pq hpq
                obtain ⟨ld, hld, hsub⟩ := w2lists pq hpq
                refine ⟨ld, ?_, ?_⟩
                · rw [hmemoNe _ (hku pq hpq)]
                  exact hld
                · intro x hx
                  exact (hdepssv x).mpr (Or.inl (hsub x hx))
              · intro x hx
                rcases (hdepssv x).mp hx with h1 | hin
                · rcases w2sub x h1 with h3 | ⟨pq, hpq, ld, hld, hxld⟩
                  · rw [w1deps sv (by omega) (by omega), hdeps8sv] at h3
                    exact absurd h3 (List.not_mem_nil x)
                  · left
                    refine ⟨pq, hpq, ld, ?_, hxld⟩
                    rw [hmemoNe _ (hku pq hpq)]
                    exact hld
                · right
                  exact hin
            · -- every shard is a dependency of the save node
              intro j hj
              rw [hsvr, hdeps12]
              exact (c7 j).mpr (Or.inr hj)

/-! ## The memoized resolver satisfies its contract at every fuel level -/

theorem getOrCreateOperations_spec (repo : Repo) (ctx : CreateContext) :
    ∀ fuel, ResolveSpec repo ctx (getOrCreateOperations repo ctx fuel) := by
  intro fuel
  induction fuel with
  | zero =>
      intro p q st l st' h
      simp [getOrCreateOperations] at h
  | succ fuel ih =>
      intro p q st l st' h
      simp only [getOrCreateOperations] at h
      cases hm : memoLookup st.allOperations (keyOf repo p q) with
      | some ops =>
          rw [hm] at h
          have h2 : some ((ops, st) : List Nat × BuildState) = some (l, st') := h
          injection h2 with h3
          injection h3 with hl hst'
          subst hl
          subst hst'
          exact ⟨StepOK.refl st, hm, fun i _ => rfl, fun hwf => hwf, fun hle => hle,
            fun _ _ _ _ hinv => hinv⟩
      | none =>
          rw [hm] at h
          cases hgs : getShards repo p q with
          | some s =>
              rw [hgs] at h
              have h2 : (if s > 1 then
                  shardedExpand (getOrCreateOperations repo ctx fuel) repo p q
                    (keyOf repo p q) s st
                else
                  unshardedExpand (getOrCreateOperations repo ctx fuel) repo ctx p q
                    (keyOf repo p q) st) = some (l, st') := h
              by_cases hs1 : s > 1
              · rw [if_pos hs1] at h2
                obtain ⟨a1, a2, a3, a4, a5, a6, _⟩ :=
                  shardedExpand_spec repo ctx _ ih p q st l st' hm s hs1 hgs h2
                exact ⟨a1, a2, a3, a4, a5, a6⟩
              · rw [if_neg hs1] at h2
                obtain ⟨_, a1, a2, a3, _, a4, a5, a6⟩ :=
                  unshardedExpand_spec repo ctx _ ih p q st l st' hm h2
                exact ⟨a1, a2, a3, a4, a5, a6⟩
          | none =>
              rw [hgs] at h
              have h2 : unshardedExpand (getOrCreateOperations repo ctx fuel) repo ctx p q
                  (keyOf repo p q) st = some (l, st') := h
              obtain ⟨_, a1, a2, a3, _, a4, a5, a6⟩ :=
                unshardedExpand_spec repo ctx _ ih p q st l st' hm h2
              exact ⟨a1, a2, a3, a4, a5, a6⟩

/-! ## The top-level creation loop -/

theorem runPairs_spec (repo : Repo) (ctx : CreateContext)
    (resolver : Nat → Nat → BuildState → Option (List Nat × BuildState))
    (hres : ResolveSpec repo ctx resolver) :
    ∀ (pairs : List (Nat × Nat)) (st st' : BuildState),
      runPairs resolver pairs st = some st' →
      StepOK st st' ∧
      (StateWF st → StateWF st') ∧
      (ListedExisting st → ListedExisting st') ∧
      (GoodInputs repo ctx →
        (∀ pq ∈ pairs, pq.1 < repo.phases.length ∧ pq.2 < repo.projects.length) →
        StateWF st → EntryInv repo ctx st → EntryInv repo ctx st') := by
  intro pairs
  induction pairs with
  | nil =>
      intro st st' h
      simp only [runPairs] at h
      injection h with h
      subst h
      exact ⟨StepOK.refl st, fun hwf => hwf, fun hle => hle, fun _ _ _ hinv => hinv⟩
  | cons pq rest ih =>
      intro st st' h
      obtain ⟨p0, q0⟩ := pq
      simp only [runPairs] at h
      cases hcall : resolver p0 q0 st with
      | none =>
          rw [hcall] at h
          exact Option.noConfusion h
      | some res =>
          obtain ⟨l1, s1⟩ := res
          rw [hcall] at h
          obtain ⟨hstep1, _, _, hwf1, hle1, hinv1⟩ := hres p0 q0 st l1 s1 hcall
          obtain ⟨ihstep, ihwf, ihle, ihinv⟩ := ih s1 st' h
          refine ⟨hstep1.trans ihstep, fun hwf => ihwf (hwf1 hwf),
            fun hle => ihle (hle1 hle), ?_⟩
          intro hg hpr hwf hinv
          refine ihinv hg (fun pq2 hpq2 => hpr pq2 (List.mem_cons_of_mem _ hpq2))
            (hwf1 hwf) ?_
          exact hinv1 hg (hpr (p0, q0) (List.mem_cons_self _ _)).1
            (hpr (p0, q0) (List.mem_cons_self _ _)).2 hwf hinv

/-! ## Finalization: attaching skip runners to operations without work -/

theorem finalizeEntry_length (work : List Nat) (k : String) (l : List Nat) (ops : List Op) :
    (finalizeEntry work k l ops).length = ops.length := by
  induction l generalizing ops with
  | nil => rfl
  | cons j rest ih =>
      simp only [finalizeEntry, List.foldl_cons]
      by_cases hj : j ∈ work
      · rw [if_pos hj]
        exact ih ops
      · rw [if_neg hj]
        rw [show List.foldl _ (modifyNth _ j ops) rest = finalizeEntry work k rest (modifyNth (fun o => { o with runner := some (nullOperationRunner k OperationStatus.Skipped true) }) j ops) from rfl]
        rw [ih, modifyNth_length]

theorem finalizeEntry_getD_work (work : List Nat) (k : String) (l : List Nat)
    (ops : List Op) {i : Nat} (hi : i ∈ work) :
    (finalizeEntry work k l ops).getD i default = ops.getD i default := by
  induction l generalizing ops with
  | nil => rfl
  | cons j rest ih =>
      simp only [finalizeEntry, List.foldl_cons]
      by_cases hj : j ∈ work
      · rw [if_pos hj]
        exact ih ops
      · rw [if_neg hj]
        rw [show List.foldl _ (modifyNth _ j ops) rest = finalizeEntry work k rest (modifyNth (fun o => { o with runner := some (nullOperationRunner k OperationStatus.Skipped true) }) j ops) from rfl]
        rw [ih, modifyNth_getD_ne _ _ _ _ (fun he => hj (by rw [← he]; exact hi))]

theorem finalizeEntry_getD_not_mem (work : List Nat) (k : String) (l : List Nat)
    (ops : List Op) {i : Nat} (hi : i ∉ l) :
    (finalizeEntry work k l ops).getD i default = ops.getD i default := by
  induction l generalizing ops with
  | nil => rfl
  | cons j rest ih =>
      have hir : i ∉ rest := fun hm => hi (List.mem_cons_of_mem _ hm)
      have hij : i ≠ j := fun he => hi (by rw [he]; exact List.mem_cons_self _ _)
      simp only [finalizeEntry, List.foldl_cons]
      by_cases hj : j ∈ work
      · rw [if_pos hj]
        exact ih ops hir
      · rw [if_neg hj]
        rw [show List.foldl _ (modifyNth _ j ops) rest = finalizeEntry work k rest (modifyNth (fun o => { o with runner := some (nullOperationRunner k OperationStatus.Skipped true) }) j ops) from rfl]
        rw [ih _ hir, modifyNth_getD_ne _ _ _ _ hij]

theorem finalizeEntry_getD (work : List Nat) (k : String) (l : List Nat)
    (ops : List Op) {i : Nat} (hw : i ∉ work) (hi : i < ops.length) :
    (finalizeEntry work k l ops).getD i default =
      if i ∈ l then
        { ops.getD i default with
          runner := some (nullOperationRunner k OperationStatus.Skipped true) }
      else ops.getD i default := by
  induction l generalizing ops with
  | nil => simp [finalizeEntry]
  | cons j rest ih =>
      simp only [finalizeEntry, List.foldl_cons]
      by_cases hj : j ∈ work
      · have hij : i ≠ j := fun he => hw (he ▸ hj)
        rw [if_pos hj]
        rw [show List.foldl _ ops rest = finalizeEntry work k rest ops from rfl]
        rw [ih _ hi]
        by_cases hir : i ∈ rest
        · rw [if_pos hir, if_pos (List.mem_cons_of_mem _ hir)]
        · rw [if_neg hir, if_neg (by
            intro hm
            rcases List.mem_cons.mp hm with he | hm2
            · exact hij he
            · exact hir hm2)]
      · rw [if_neg hj]
        rw [show List.foldl _ (modifyNth _ j ops) rest = finalizeEntry work k rest (modifyNth (fun o => { o with runner := some (nullOperationRunner k OperationStatus.Skipped true) }) j ops) from rfl]
        have hlen : i < (modifyNth (fun o => { o with runner := some (nullOperationRunner k OperationStatus.Skipped true) }) j ops).length := by
          rw [modifyNth_length]
          exact hi
        rw [ih _ hlen]
        by_cases hij : i = j
        · subst hij
          rw [modifyNth_getD_self _ _ _ hi]
          by_cases hir : i ∈ rest
          · rw [if_pos hir, if_pos (List.mem_cons_self _ _)]
          · rw [if_neg hir, if_pos (List.mem_cons_self _ _)]
        · rw [modifyNth_getD_ne _ _ _ _ hij]
          by_cases hir : i ∈ rest
          · rw [if_pos hir, if_pos (List.mem_cons_of_mem _ hir)]
          · rw [if_neg hir, if_neg (by
              intro hm
              rcases List.mem_cons.mp hm with he | hm2
              · exact hij he
              · exact hir hm2)]

theorem finalizeOps_length (work : List Nat) (entries : List (String × List Nat))
    (ops : List Op) : (finalizeOps work entries ops).length = ops.length := by
  induction entries generalizing ops with
  | nil => rfl
  | cons kv rest ih =>
      simp only [finalizeOps, List.foldl_cons]
      rw [show List.foldl _ (finalizeEntry work kv.1 kv.2 ops) rest = finalizeOps work rest (finalizeEntry work kv.1 kv.2 ops) from rfl]
      rw [ih, finalizeEntry_length]

theorem finalizeEntry_skip_stable (work : List Nat) (k : String) (l : List Nat)
    (ops : List Op) {i : Nat}
    (h : IsSkipRunner ((ops.getD i default).runner)) :
    IsSkipRunner (((finalizeEntry work k l ops).getD i default).runner) := by
  by_cases hw : i ∈ work
  · rw [finalizeEntry_getD_work work k l ops hw]
    exact h
  · by_cases hi : i < ops.length
    · rw [finalizeEntry_getD work k l ops hw hi]
      by_cases hil : i ∈ l
      · rw [if_pos hil]
        exact ⟨k, rfl⟩
      · rw [if_neg hil]
        exact h
    · have : (finalizeEntry work k l ops).getD i default = ops.getD i default := by
        rw [List.getD_eq_getElem?_getD, List.getD_eq_getElem?_getD]
        rw [List.getElem?_eq_none (by rw [finalizeEntry_length]; omega),
          List.getElem?_eq_none (by omega)]
      rw [this]
      exact h

theorem finalizeOps_skip_stable (work : List Nat) (entries : List (String × List Nat))
    (ops : List Op) {i : Nat}
    (h : IsSkipRunner ((ops.getD i default).runner)) :
    IsSkipRunner (((finalizeOps work entries ops).getD i default).runner) := by
  induction entries generalizing ops with
  | nil => exact h
  | cons kv rest ih =>
      simp only [finalizeOps, List.foldl_cons]
      rw [show List.foldl _ (finalizeEntry work kv.1 kv.2 ops) rest = finalizeOps work rest (finalizeEntry work kv.1 kv.2 ops) from rfl]
      exact ih _ (finalizeEntry_skip_stable work kv.1 kv.2 ops h)

theorem finalizeOps_assigns (work : List Nat) :
    ∀ (entries : List (String × List Nat)) (ops : List Op) (k : String) (l : List Nat)
      (i : Nat), (k, l) ∈ entries → i ∈ l → i ∉ work → i < ops.length →
      IsSkipRunner (((finalizeOps work entries ops).getD i default).runner) := by
  intro entries
  induction entries with
  | nil =>
      intro ops k l i hmem
      simp at hmem
  | cons kv rest ih =>
      intro ops k l i hmem hil hw hi
      simp only [finalizeOps, List.foldl_cons]
      rw [show List.foldl _ (finalizeEntry work kv.1 kv.2 ops) rest = finalizeOps work rest (finalizeEntry work kv.1 kv.2 ops) from rfl]
      rcases List.mem_cons.mp hmem with he | hmem2
      · have hk : kv.1 = k := by rw [← he]
        have hl : kv.2 = l := by rw [← he]
        refine finalizeOps_skip_stable work rest _ ?_
        rw [hk, hl, finalizeEntry_getD work k l ops hw hi, if_pos hil]
        exact ⟨k, rfl⟩
      · refine ih _ k l i hmem2 hil hw ?_
        rw [finalizeEntry_length]
        exact hi

theorem finalizeEntry_value_stable (work : List Nat) (k : String) (l : List Nat)
    (ops : List Op) {i : Nat} {K : String}
    (hv : (ops.getD i default).runner =
      some (nullOperationRunner K OperationStatus.Skipped true))
    (hK : i ∈ l → k = K) :
    ((finalizeEntry work k l ops).getD i default).runner =
      some (nullOperationRunner K OperationStatus.Skipped true) := by
  by_cases hw : i ∈ work
  · rw [finalizeEntry_getD_work work k l ops hw]
    exact hv
  · by_cases hil : i ∈ l
    · by_cases hi : i < ops.length
      · rw [finalizeEntry_getD work k l ops hw hi, if_pos hil, hK hil]
      · have : (finalizeEntry work k l ops).getD i default = ops.getD i default := by
          rw [List.getD_eq_getElem?_getD, List.getD_eq_getElem?_getD]
          rw [List.getElem?_eq_none (by rw [finalizeEntry_length]; omega),
            List.getElem?_eq_none (by omega)]
        rw [this]
        exact hv
    · rw [finalizeEntry_getD_not_mem work k l ops hil]
      exact hv

theorem finalizeOps_value_stable (work : List Nat) :
    ∀ (entries : List (String × List Nat)) (ops : List Op) (i : Nat) (K : String),
      (ops.getD i default).runner =
        some (nullOperationRunner K OperationStatus.Skipped true) →
      (∀ kl ∈ entries, i ∈ kl.2 → kl.1 = K) →
      ((finalizeOps work entries ops).getD i default).runner =
        some (nullOperationRunner K OperationStatus.Skipped true) := by
  intro entries
  induction entries with
  | nil =>
      intro ops i K hv _
      exact hv
  | cons kv rest ih =>
      intro ops i K hv hK
      simp only [finalizeOps, List.foldl_cons]
      rw [show List.foldl _ (finalizeEntry work kv.1 kv.2 ops) rest = finalizeOps work rest (finalizeEntry work kv.1 kv.2 ops) from rfl]
      refine ih _ i K ?_ (fun kl hkl => hK kl (List.mem_cons_of_mem _ hkl))
      exact finalizeEntry_value_stable work kv.1 kv.2 ops hv
        (hK kv (List.mem_cons_self _ _))

theorem finalizeEntry_identity (work : List Nat) (k : String) (l : List Nat)
    (ops : List Op) (i : Nat) :
    ((finalizeEntry work k l ops).getD i default).project = (ops.getD i default).project ∧
    ((finalizeEntry work k l ops).getD i default).phase = (ops.getD i default).phase ∧
    ((finalizeEntry work k l ops).getD i default).shard = (ops.getD i default).shard ∧
    ((finalizeEntry work k l ops).getD i default).dependencies =
      (ops.getD i default).dependencies ∧
    ((finalizeEntry work k l ops).getD i default).consumers =
      (ops.getD i default).consumers := by
  induction l generalizing ops with
  | nil => exact ⟨rfl, rfl, rfl, rfl, rfl⟩
  | cons j rest ih =>
      simp only [finalizeEntry, List.foldl_cons]
      by_cases hj : j ∈ work
      · rw [if_pos hj]
        exact ih ops
      · rw [if_neg hj]
        rw [show List.foldl _ (modifyNth _ j ops) rest = finalizeEntry work k rest (modifyNth (fun o => { o with runner := some (nullOperationRunner k OperationStatus.Skipped true) }) j ops) from rfl]
        obtain ⟨e1, e2, e3, e4, e5⟩ := ih (modifyNth (fun o => { o with runner := some (nullOperationRunner k OperationStatus.Skipped true) }) j ops)
        refine ⟨?_, ?_, ?_, ?_, ?_⟩
        · rw [e1]
          by_cases hij : i = j
          · subst hij
            by_cases hi : i < ops.length
            · rw [modifyNth_getD_self _ _ _ hi]
            · rw [modifyNth_out_of_range _ _ _ (by omega)]
          · rw [modifyNth_getD_ne _ _ _ _ hij]
        · rw [e2]
          by_cases hij : i = j
          · subst hij
            by_cases hi : i < ops.length
            · rw [modifyNth_getD_self _ _ _ hi]
            · rw [modifyNth_out_of_range _ _ _ (by omega)]
          · rw [modifyNth_getD_ne _ _ _ _ hij]
        · rw [e3]
          by_cases hij : i = j
          · subst hij
            by_cases hi : i < ops.length
            · rw [modifyNth_getD_self _ _ _ hi]
            · rw [modifyNth_out_of_range _ _ _ (by omega)]
          · rw [modifyNth_getD_ne _ _ _ _ hij]
        · rw [e4]
          by_cases hij : i = j
          · subst hij
            by_cases hi : i < ops.length
            · rw [modifyNth_getD_self _ _ _ hi]
            · rw [modifyNth_out_of_range _ _ _ (by omega)]
          · rw [modifyNth_getD_ne _ _ _ _ hij]
        · rw [e5]
          by_cases hij : i = j
          · subst hij
            by_cases hi : i < ops.length
            · rw [modifyNth_getD_self _ _ _ hi]
            · rw [modifyNth_out_of_range _ _ _ (by omega)]
          · rw [modifyNth_getD_ne _ _ _ _ hij]

theorem finalizeOps_identity (work : List Nat) :
    ∀ (entries : List (String × List Nat)) (ops : List Op) (i : Nat),
    ((finalizeOps work entries ops).getD i default).project = (ops.getD i default).project ∧
    ((finalizeOps work entries ops).getD i default).phase = (ops.getD i default).phase ∧
    ((finalizeOps work entries ops).getD i default).shard = (ops.getD i default).shard ∧
    ((finalizeOps work entries ops).getD i default).dependencies =
      (ops.getD i default).dependencies ∧
    ((finalizeOps work entries ops).getD i default).consumers =
      (ops.getD i default).consumers := by
  intro entries
  induction entries with
  | nil => exact fun ops i => ⟨rfl, rfl, rfl, rfl, rfl⟩
  | cons kv rest ih =>
      intro ops i
      simp only [finalizeOps, List.foldl_cons]
      rw [show List.foldl _ (finalizeEntry work kv.1 kv.2 ops) rest = finalizeOps work rest (finalizeEntry work kv.1 kv.2 ops) from rfl]
      obtain ⟨e1, e2, e3, e4, e5⟩ := ih (finalizeEntry work kv.1 kv.2 ops) i
      obtain ⟨f1, f2, f3, f4, f5⟩ := finalizeEntry_identity work kv.1 kv.2 ops i
      exact ⟨by rw [e1, f1], by rw [e2, f2], by rw [e3, f3], by rw [e4, f4], by rw [e5, f5]⟩

/-! ## Dirty propagation computes the forward transitive closure -/

theorem consumersOf_out_of_range (ops : List Op) {i : Nat} (h : ops.length ≤ i) :
    consumersOf ops i = [] := by
  unfold consumersOf
  rw [List.getD_eq_getElem?_getD, List.getElem?_eq_none h]
  rfl

theorem enqueue_spec : ∀ (js queue acc : List Nat),
    ∃ fr, enqueue js queue acc = (queue ++ fr, acc ++ fr) ∧
      (∀ x ∈ fr, x ∈ js) ∧
      (∀ x ∈ js, x ∈ acc ∨ x ∈ fr) ∧
      (∀ x ∈ fr, x ∉ acc) ∧
      fr.Nodup := by
  intro js
  induction js with
  | nil =>
      intro queue acc
      exact ⟨[], by simp [enqueue], by simp, by simp, by simp, List.nodup_nil⟩
  | cons j js ih =>
      intro queue acc
      by_cases hj : j ∈ acc
      · obtain ⟨fr, heq, h1, h2, h3, h4⟩ := ih queue acc
        refine ⟨fr, ?_, ?_, ?_, h3, h4⟩
        · rw [enqueue, if_pos hj]
          exact heq
        · intro x hx
          exact List.mem_cons_of_mem _ (h1 x hx)
        · intro x hx
          rcases List.mem_cons.mp hx with he | hm
          · subst he
            exact Or.inl hj
          · exact h2 x hm
      · obtain ⟨fr, heq, h1, h2, h3, h4⟩ := ih (queue ++ [j]) (acc ++ [j])
        refine ⟨j :: fr, ?_, ?_, ?_, ?_, ?_⟩
        · rw [enqueue, if_neg hj, heq]
          simp
        · intro x hx
          rcases List.mem_cons.mp hx with he | hm
          · subst he
            exact List.mem_cons_self _ _
          · exact List.mem_cons_of_mem _ (h1 x hm)
        · intro x hx
          rcases List.mem_cons.mp hx with he | hm
          · subst he
            exact Or.inr (List.mem_cons_self _ _)
          · rcases h2 x hm with hA | hA
            · rcases List.mem_append.mp hA with hB | hB
              · exact Or.inl hB
              · rw [List.mem_singleton] at hB
                subst hB
                exact Or.inr (List.mem_cons_self _ _)
            · exact Or.inr (List.mem_cons_of_mem _ hA)
        · intro x hx
          rcases List.mem_cons.mp hx with he | hm
          · subst he
            exact hj
          · intro hmem
            exact h3 x hm (List.mem_append.mpr (Or.inl hmem))
        · refine List.nodup_cons.mpr ⟨?_, h4⟩
          intro hmem
          exact h3 j hmem (List.mem_append.mpr (Or.inr (List.mem_singleton.mpr rfl)))

theorem missingCount_append (ops : List Op) (acc fr : List Nat)
    (hlt : ∀ x ∈ fr, x < ops.length) (hdisj : ∀ x ∈ fr, x ∉ acc) (hnd : fr.Nodup) :
    missingCount ops (acc ++ fr) + fr.length = missingCount ops acc := by
  unfold missingCount
  rw [List.toFinset_append]
  have hsub : fr.toFinset ⊆ Finset.range ops.length \ acc.toFinset := by
    intro x hx
    rw [List.mem_toFinset] at hx
    rw [Finset.mem_sdiff, Finset.mem_range]
    exact ⟨hlt x hx, by rw [List.mem_toFinset]; exact hdisj x hx⟩
  have he : Finset.range ops.length \ (acc.toFinset ∪ fr.toFinset) =
      (Finset.range ops.length \ acc.toFinset) \ fr.toFinset := by
    rw [sdiff_sdiff_left]
    rfl
  rw [he, Finset.card_sdiff hsub]
  have hcard : fr.toFinset.card = fr.length := List.toFinset_card_of_nodup hnd
  have hle : fr.toFinset.card ≤ (Finset.range ops.length \ acc.toFinset).card :=
    Finset.card_le_card hsub
  omega

theorem propagateAux_spec (ops : List Op)
    (hcons : ∀ i, i < ops.length → ∀ j ∈ consumersOf ops i, j < ops.length) :
    ∀ (fuel : Nat) (queue acc : List Nat),
      queue.length + 2 * missingCount ops acc ≤ fuel →
      acc.Nodup →
      (∀ x ∈ queue, x ∈ acc) →
      (∀ x ∈ acc, x ∈ queue ∨ ∀ j ∈ consumersOf ops x, j ∈ acc) →
      (∀ x ∈ acc, x ∈ propagateAux ops fuel queue acc) ∧
      (∀ x ∈ propagateAux ops fuel queue acc,
        ∃ i0 ∈ acc, Relation.ReflTransGen (consEdge ops) i0 x) ∧
      (∀ x ∈ propagateAux ops fuel queue acc, ∀ j ∈ consumersOf ops x,
        j ∈ propagateAux ops fuel queue acc) := by
  intro fuel
  induction fuel with
  | zero =>
      intro queue acc hfuel hnd hqa hclosed
      have hq : queue = [] := by
        cases queue with
        | nil => rfl
        | cons a t =>
            simp only [List.length_cons] at hfuel
            omega
      subst hq
      simp only [propagateAux]
      refine ⟨fun x hx => hx, fun x hx => ⟨x, hx, Relation.ReflTransGen.refl⟩, ?_⟩
      intro x hx j hj
      rcases hclosed x hx with h1 | h1
      · exact absurd h1 (List.not_mem_nil x)
      · exact h1 j hj
  | succ fuel ih =>
      intro queue acc hfuel hnd hqa hclosed
      cases queue with
      | nil =>
          simp only [propagateAux]
          refine ⟨fun x hx => hx, fun x hx => ⟨x, hx, Relation.ReflTransGen.refl⟩, ?_⟩
          intro x hx j hj
          rcases hclosed x hx with h1 | h1
          · exact absurd h1 (List.not_mem_nil x)
          · exact h1 j hj
      | cons hd queue =>
          obtain ⟨fr, heq, hfrjs, hcov, hfrnew, hfrnd⟩ :=
            enqueue_spec (consumersOf ops hd) queue acc
          have hred : propagateAux ops (fuel + 1) (hd :: queue) acc =
              propagateAux ops fuel (queue ++ fr) (acc ++ fr) := by
            simp only [propagateAux]
            rw [heq]
          rw [hred]
          have hfrlt : ∀ x ∈ fr, x < ops.length := by
            intro x hx
            by_cases hhd : hd < ops.length
            · exact hcons hd hhd x (hfrjs x hx)
            · rw [consumersOf_out_of_range ops (by omega)] at hfrjs
              exact absurd (hfrjs x hx) (List.not_mem_nil x)
          have hmc := missingCount_append ops acc fr hfrlt hfrnew hfrnd
          have hfuel2 : (queue ++ fr).length + 2 * missingCount ops (acc ++ fr) ≤ fuel := by
            rw [List.length_append]
            simp only [List.length_cons] at hfuel
            omega
          have hnd2 : (acc ++ fr).Nodup := by
            rw [List.nodup_append]
            exact ⟨hnd, hfrnd, fun x hx hx2 => hfrnew x hx2 hx⟩
          have hqa2 : ∀ x ∈ queue ++ fr, x ∈ acc ++ fr := by
            intro x hx
            rcases List.mem_append.mp hx with h1 | h1
            · exact List.mem_append.mpr (Or.inl (hqa x (List.mem_cons_of_mem _ h1)))
            · exact List.mem_append.mpr (Or.inr h1)
          have hclosed2 : ∀ x ∈ acc ++ fr, x ∈ queue ++ fr ∨
              ∀ j ∈ consumersOf ops x, j ∈ acc ++ fr := by
            intro x hx
            rcases List.mem_append.mp hx with h1 | h1
            · rcases hclosed x h1 with h2 | h2
              · rcases List.mem_cons.mp h2 with he | hm
                · subst he
                  right
                  intro j hj
                  rcases hcov j hj with h3 | h3
                  · exact List.mem_append.mpr (Or.inl h3)
                  · exact List.mem_append.mpr (Or.inr h3)
                · exact Or.inl (List.mem_append.mpr (Or.inl hm))
              · right
                intro j hj
                exact List.mem_append.mpr (Or.inl (h2 j hj))
            · exact Or.inl (List.mem_append.mpr (Or.inr h1))
          obtain ⟨s1, s2, s3⟩ := ih (queue ++ fr) (acc ++ fr) hfuel2 hnd2 hqa2 hclosed2
          refine ⟨?_, ?_, s3⟩
          · intro x hx
            exact s1 x (List.mem_append.mpr (Or.inl hx))
          · intro x hx
            obtain ⟨i0, hi0, hrtg⟩ := s2 x hx
            rcases List.mem_append.mp hi0 with h1 | h1
            · exact ⟨i0, h1, hrtg⟩
            · refine ⟨hd, hqa hd (List.mem_cons_self _ _), ?_⟩
              exact Relation.ReflTransGen.head (hfrjs i0 h1) hrtg

/-! ## Remaining helper lemmas -/

theorem modifyNth_eq_self (f : Op → Op) :
    ∀ (n : Nat) (l : List Op), f (l.getD n default) = l.getD n default →
      modifyNth f n l = l := by
  intro n l
  induction l generalizing n with
  | nil => intro _; cases n <;> rfl
  | cons a t ih =>
      intro h
      cases n with
      | zero =>
          simp only [List.getD_cons_zero] at h
          rw [modifyNth, h]
      | succ m =>
          simp only [List.getD_cons_succ] at h
          rw [modifyNth, ih m h]

theorem finalizeOps_getD_work (work : List Nat) :
    ∀ (entries : List (String × List Nat)) (ops : List Op) (i : Nat), i ∈ work →
      (finalizeOps work entries ops).getD i default = ops.getD i default := by
  intro entries
  induction entries with
  | nil => intro ops i _; rfl
  | cons kv rest ih =>
      intro ops i hi
      simp only [finalizeOps, List.foldl_cons]
      rw [show List.foldl _ (finalizeEntry work kv.1 kv.2 ops) rest = finalizeOps work rest (finalizeEntry work kv.1 kv.2 ops) from rfl]
      rw [ih _ i hi, finalizeEntry_getD_work work kv.1 kv.2 ops hi]

theorem range'_getD : ∀ (n b j : Nat), j < n → (List.range' b n).getD j 0 = b + j := by
  intro n
  induction n with
  | zero => intro b j hj; omega
  | succ n ih =>
      intro b j hj
      cases j with
      | zero => rfl
      | succ m =>
          show (List.range' (b + 1) n).getD m 0 = b + (m + 1)
          rw [ih (b + 1) m (by omega)]
          omega

/-- Expose the phases of `createOperations`: the creation loop, then
propagation, then finalization. -/
theorem createOperations_eq (repo : Repo) (ctx : CreateContext) (fuel : Nat)
    (initialOps : List Op) (initialExisting : List Nat) (stF : BuildState)
    (h : createOperations repo ctx fuel initialOps initialExisting = some stF) :
    ∃ stR, runPairs (getOrCreateOperations repo ctx fuel)
        (ctx.phaseOriginal.flatMap (fun p => ctx.projectSelection.map (fun q => (p, q))))
        { ops := initialOps, allOperations := [], operationsWithWork := [],
          existingOperations := initialExisting } = some stR ∧
      stF = { stR with
        ops := finalizeOps (propagate stR.ops stR.operationsWithWork)
          stR.allOperations stR.ops,
        operationsWithWork := propagate stR.ops stR.operationsWithWork } := by
  simp only [createOperations] at h
  cases hrun : runPairs (getOrCreateOperations repo ctx fuel)
      (ctx.phaseOriginal.flatMap (fun p => ctx.projectSelection.map (fun q => (p, q))))
      { ops := initialOps, allOperations := [], operationsWithWork := [],
        existingOperations := initialExisting } with
  | none =>
      rw [hrun] at h
      exact Option.noConfusion h
  | some stR =>
      rw [hrun] at h
      injection h with h
      exact ⟨stR, rfl, h.symm⟩

theorem stateWF_initial (initialOps : List Op) (initialExisting : List Nat) :
    StateWF { ops := initialOps, allOperations := [], operationsWithWork := [],
              existingOperations := initialExisting } := by
  refine ⟨List.nodup_nil, ?_, ?_⟩
  · intro k l hk
    simp [memoLookup] at hk
  · intro k k' l l' _ hk
    simp [memoLookup] at hk

theorem entryInv_initial (repo : Repo) (ctx : CreateContext) (initialOps : List Op)
    (initialExisting : List Nat) :
    EntryInv repo ctx { ops := initialOps, allOperations := [],
                        operationsWithWork := [],
                        existingOperations := initialExisting } := by
  intro p q _ _ _ _ l hk
  simp [memoLookup] at hk

theorem listedExisting_initial (initialOps : List Op) (initialExisting : List Nat) :
    ListedExisting { ops := initialOps, allOperations := [], operationsWithWork := [],
                     existingOperations := initialExisting } := by
  intro k l hk
  simp [memoLookup] at hk

theorem pairs_in_range (repo : Repo) (ctx : CreateContext)
    (h1 : ∀ p ∈ ctx.phaseOriginal, p < repo.phases.length)
    (h2 : ∀ q ∈ ctx.projectSelection, q < repo.projects.length) :
    ∀ pq ∈ ctx.phaseOriginal.flatMap
        (fun p => ctx.projectSelection.map (fun q => (p, q))),
      pq.1 < repo.phases.length ∧ pq.2 < repo.projects.length := by
  intro pq hpq
  obtain ⟨p0, hp0, hmem⟩ := List.mem_flatMap.mp hpq
  obtain ⟨q0, hq0, he⟩ := List.mem_map.mp hmem
  rw [← he]
  exact ⟨h1 p0 hp0, h2 q0 hq0⟩

/-! ## Claim theorems -/

theorem buildState_ext {s s' : BuildState} (h1 : s.ops = s'.ops)
    (h2 : s.allOperations = s'.allOperations)
    (h3 : s.operationsWithWork = s'.operationsWithWork)
    (h4 : s.existingOperations = s'.existingOperations) : s = s' := by
  cases s
  cases s'
  simp only at h1 h2 h3 h4
  rw [h1, h2, h3, h4]

/-- C8: `addDependency(A, B)` is symmetric bookkeeping — `B` joins `A`'s
dependency set and `A` joins `B`'s consumer set — and is idempotent: adding
the same edge again leaves the state unchanged. No other step of the pass
writes a consumer set: assigning a runner, finalization, creating a fresh
operation, and the two set insertions all leave every consumer set as it
was. -/
theorem addDependency_bookkeeping (st : BuildState) (a b : Nat)
    (ha : a < st.ops.length) (hb : b < st.ops.length) :
    b ∈ depsOf (addDependency st a b) a ∧
    a ∈ consOf (addDependency st a b) b ∧
    addDependency (addDependency st a b) a b = addDependency st a b ∧
    (∀ i r j, consOf (setRunner st i r) j = consOf st j) ∧
    (∀ work entries j,
      ((finalizeOps work entries st.ops).getD j default).consumers =
        (st.ops.getD j default).consumers) ∧
    (∀ projId phaseId sh j,
      consOf (newOperation st projId phaseId sh).2 j = consOf st j) ∧
    (∀ i j, consOf (addWork st i) j = consOf st j) ∧
    (∀ i j, consOf (addExisting st i) j = consOf st j) := by
  have hmem1 : b ∈ depsOf (addDependency st a b) a := by
    rw [addDependency_deps_self st a b ha]
    exact self_mem_insertIfAbsent
  have hmem2 : a ∈ consOf (addDependency st a b) b := by
    rw [addDependency_cons_self st a b hb]
    exact self_mem_insertIfAbsent
  refine ⟨hmem1, hmem2, ?_, setRunner_cons st, ?_, ?_, fun i j => rfl, fun i j => rfl⟩
  · -- idempotence
    set st1 := addDependency st a b with hst1
    have h1 : modifyNth
        (fun o => { o with dependencies := insertIfAbsent o.dependencies b }) a st1.ops =
        st1.ops := by
      refine modifyNth_eq_self _ a st1.ops ?_
      have he : insertIfAbsent (st1.ops.getD a default).dependencies b =
          (st1.ops.getD a default).dependencies := insertIfAbsent_of_mem hmem1
      rw [he]
    have h2 : modifyNth
        (fun o => { o with consumers := insertIfAbsent o.consumers a }) b st1.ops =
        st1.ops := by
      refine modifyNth_eq_self _ b st1.ops ?_
      have he : insertIfAbsent (st1.ops.getD b default).consumers a =
          (st1.ops.getD b default).consumers := insertIfAbsent_of_mem hmem2
      rw [he]
    refine buildState_ext ?_ rfl rfl rfl
    show modifyNth (fun o => { o with consumers := insertIfAbsent o.consumers a }) b
        (modifyNth (fun o => { o with dependencies := insertIfAbsent o.dependencies b }) a
          st1.ops) = st1.ops
    rw [h1, h2]
  · intro work entries j
    exact (finalizeOps_identity work entries st.ops j).2.2.2.2
  · intro projId phaseId sh j
    by_cases hj : j < st.ops.length
    · show (opAt (newOperation st projId phaseId sh).2 j).consumers = _
      rw [newOperation_opAt_old _ _ _ _ hj]
      rfl
    · by_cases hje : j = st.ops.length
      · show (opAt (newOperation st projId phaseId sh).2 j).consumers = _
        rw [hje, newOperation_opAt_new]
        show ([] : List Nat) = (st.ops.getD st.ops.length default).consumers
        rw [List.getD_eq_getElem?_getD, List.getElem?_eq_none (Nat.le_refl _)]
        rfl
      · show ((newOperation st projId phaseId sh).2.ops.getD j default).consumers =
          (st.ops.getD j default).consumers
        rw [List.getD_eq_getElem?_getD, List.getD_eq_getElem?_getD,
          List.getElem?_eq_none (by rw [newOperation_length]; omega),
          List.getElem?_eq_none (by omega)]

/-- Witness for C8 at a concrete two-operation state. -/
theorem addDependency_bookkeeping_witness :
    (0 < twoOpState.ops.length ∧ 1 < twoOpState.ops.length) ∧
    1 ∈ depsOf (addDependency twoOpState 0 1) 0 ∧
    0 ∈ consOf (addDependency twoOpState 0 1) 1 ∧
    addDependency (addDependency twoOpState 0 1) 0 1 = addDependency twoOpState 0 1 :=
  ⟨⟨by decide, by decide⟩,
    (addDependency_bookkeeping twoOpState 0 1 (by decide) (by decide)).1,
    (addDependency_bookkeeping twoOpState 0 1 (by decide) (by decide)).2.1,
    (addDependency_bookkeeping twoOpState 0 1 (by decide) (by decide)).2.2.1⟩

/-- C4: within one construction pass, resolving the same (phase, project) key
a second time returns the identical list of operations produced by the first
resolution and leaves the state untouched: the memo hit short-circuits, so no
new operations are created and no wiring is repeated. -/
theorem resolve_twice_identical (repo : Repo) (ctx : CreateContext) (fuel : Nat)
    (p q : Nat) (st : BuildState) (l : List Nat) (st' : BuildState)
    (h : getOrCreateOperations repo ctx fuel p q st = some (l, st')) :
    ∀ fuel' p' q', keyOf repo p' q' = keyOf repo p q →
      getOrCreateOperations repo ctx (fuel' + 1) p' q' st' = some (l, st') := by
  intro fuel' p' q' hk
  have hm := (getOrCreateOperations_spec repo ctx fuel p q st l st' h).2.1
  simp only [getOrCreateOperations]
  rw [hk, hm]

/-- Witness for C4: resolving (phase 0, project 0) of `soloRepo` twice. -/
theorem resolve_twice_identical_witness :
    getOrCreateOperations soloRepo soloCtx 5 0 0 emptyState =
      some (soloResolve.1, soloResolve.2) ∧
    getOrCreateOperations soloRepo soloCtx 3 0 0 soloResolve.2 =
      some (soloResolve.1, soloResolve.2) :=
  ⟨rfl, resolve_twice_identical soloRepo soloCtx 5 0 0 emptyState soloResolve.1
    soloResolve.2 rfl 2 0 0 rfl⟩

/-- C7: resolution takes the unsharded branch exactly when the shard-count
lookup yields nothing or a count ≤ 1 (on a memo miss the resolved list then
has exactly one element); in particular a missing project configuration or a
missing per-operation settings entry for the phase's name means "not
sharded". -/
theorem unsharded_branch_condition (repo : Repo) (ctx : CreateContext) (p q : Nat) :
    (repo.projectConfiguration q = none → getShards repo p q = none) ∧
    (∀ cfg, repo.projectConfiguration q = some cfg →
      settingsLookup cfg (repo.phase p).name = none → getShards repo p q = none) ∧
    isSharded none = false ∧
    (∀ s, s ≤ 1 → isSharded (some s) = false) ∧
    (∀ fuel st l st', memoLookup st.allOperations (keyOf repo p q) = none →
      getOrCreateOperations repo ctx fuel p q st = some (l, st') →
      (l.length = 1 ↔ isSharded (getShards repo p q) = false)) := by
  refine ⟨?_, ?_, rfl, ?_, ?_⟩
  · intro hc
    unfold getShards
    rw [hc]
  · intro cfg hc hs
    unfold getShards
    rw [hc]
    show (settingsLookup cfg (repo.phase p).name).bind (fun s => s.shards) = none
    rw [hs]
    rfl
  · intro s hs
    simp only [isSharded, decide_eq_false_iff_not]
    omega
  · intro fuel st l st' hmiss h
    cases fuel with
    | zero => simp [getOrCreateOperations] at h
    | succ fuel =>
        simp only [getOrCreateOperations] at h
        rw [hmiss] at h
        cases hgs : getShards repo p q with
        | some s =>
            rw [hgs] at h
            have h2 : (if s > 1 then
                shardedExpand (getOrCreateOperations repo ctx fuel) repo p q
                  (keyOf repo p q) s st
              else
                unshardedExpand (getOrCreateOperations repo ctx fuel) repo ctx p q
                  (keyOf repo p q) st) = some (l, st') := h
            by_cases hs1 : s > 1
            · rw [if_pos hs1] at h2
              obtain ⟨_, _, _, _, _, _, base, _, hlform, _⟩ :=
                shardedExpand_spec repo ctx _ (getOrCreateOperations_spec repo ctx fuel)
                  p q st l st' hmiss s hs1 hgs h2
              constructor
              · intro hlen
                rw [hlform] at hlen
                simp only [List.length_cons, List.length_range'] at hlen
                omega
              · intro hsh
                simp only [isSharded, decide_eq_false_iff_not] at hsh
                exact absurd hs1 hsh
            · rw [if_neg hs1] at h2
              obtain ⟨hl, _⟩ := unshardedExpand_spec repo ctx _
                (getOrCreateOperations_spec repo ctx fuel) p q st l st' hmiss h2
              constructor
              · intro _
                simp only [isSharded, decide_eq_false_iff_not]
                exact hs1
              · intro _
                rw [hl]
                rfl
        | none =>
            rw [hgs] at h
            have h2 : unshardedExpand (getOrCreateOperations repo ctx fuel) repo ctx p q
                (keyOf repo p q) st = some (l, st') := h
            obtain ⟨hl, _⟩ := unshardedExpand_spec repo ctx _
              (getOrCreateOperations_spec repo ctx fuel) p q st l st' hmiss h2
            exact ⟨fun _ => rfl, fun _ => by rw [hl]; rfl⟩

/-- Witness for C7: `soloRepo` has no project configuration, hence no shard
count, and its concrete resolution produced a one-element list. -/
theorem unsharded_branch_condition_witness :
    soloRepo.projectConfiguration 0 = none ∧ getShards soloRepo 0 0 = none ∧
    (soloResolve.1.length = 1 ↔ isSharded (getShards soloRepo 0 0) = false) :=
  ⟨by decide, (unsharded_branch_condition soloRepo soloCtx 0 0).1 (by decide),
    (unsharded_branch_condition soloRepo soloCtx 0 0).2.2.2.2 5 emptyState
      soloResolve.1 soloResolve.2 (by decide) rfl⟩

/-- C5: on a memo miss, a resolved (phase, project) list contains exactly one
operation (with no shard descriptor) when the pair is unsharded, and exactly
N + 2 operations when the shard count is N > 1: a build-cache restore
boundary, a build-cache save boundary, and N shard operations carrying shard
descriptors (j + 1, N) for j < N. -/
theorem resolved_list_cardinality (repo : Repo) (ctx : CreateContext) (fuel : Nat)
    (p q : Nat) (st : BuildState) (l : List Nat) (st' : BuildState)
    (hmiss : memoLookup st.allOperations (keyOf repo p q) = none)
    (h : getOrCreateOperations repo ctx fuel p q st = some (l, st')) :
    (isSharded (getShards repo p q) = false →
      ∃ i, l = [i] ∧ (opAt st' i).shard = none) ∧
    (∀ N, getShards repo p q = some N → N > 1 →
      l.length = N + 2 ∧
      ∃ t, l = st.ops.length :: (st.ops.length + 1) :: t ∧ t.length = N ∧
        runnerOf st' st.ops.length = some buildCacheRestoreRunner ∧
        (opAt st' st.ops.length).shard = none ∧
        runnerOf st' (st.ops.length + 1) = some buildCacheSaveRunner ∧
        (opAt st' (st.ops.length + 1)).shard = none ∧
        (∀ j, j < N → (opAt st' (t.getD j 0)).shard = some (j + 1, N))) := by
  cases fuel with
  | zero => simp [getOrCreateOperations] at h
  | succ fuel =>
      simp only [getOrCreateOperations] at h
      rw [hmiss] at h
      constructor
      · intro hsh
        cases hgs : getShards repo p q with
        | some s =>
            rw [hgs] at h
            rw [hgs] at hsh
            simp only [isSharded, decide_eq_false_iff_not] at hsh
            have h2 : (if s > 1 then
                shardedExpand (getOrCreateOperations repo ctx fuel) repo p q
                  (keyOf repo p q) s st
              else
                unshardedExpand (getOrCreateOperations repo ctx fuel) repo ctx p q
                  (keyOf repo p q) st) = some (l, st') := h
            rw [if_neg hsh] at h2
            obtain ⟨hl, _, _, _, hcore, _⟩ := unshardedExpand_spec repo ctx _
              (getOrCreateOperations_spec repo ctx fuel) p q st l st' hmiss h2
            exact ⟨st.ops.length, hl, congrArg (fun t => t.2.2.1) hcore⟩
        | none =>
            rw [hgs] at h
            have h2 : unshardedExpand (getOrCreateOperations repo ctx fuel) repo ctx p q
                (keyOf repo p q) st = some (l, st') := h
            obtain ⟨hl, _, _, _, hcore, _⟩ := unshardedExpand_spec repo ctx _
              (getOrCreateOperations_spec repo ctx fuel) p q st l st' hmiss h2
            exact ⟨st.ops.length, hl, congrArg (fun t => t.2.2.1) hcore⟩
      · intro N hgs hN
        rw [hgs] at h
        have h2 : (if N > 1 then
            shardedExpand (getOrCreateOperations repo ctx fuel) repo p q
              (keyOf repo p q) N st
          else
            unshardedExpand (getOrCreateOperations repo ctx fuel) repo ctx p q
              (keyOf repo p q) st) = some (l, st') := h
        rw [if_pos hN] at h2
        obtain ⟨_, _, _, _, _, _, base, hble, hlform, hcr, hcsv, hshard, _⟩ :=
          shardedExpand_spec repo ctx _ (getOrCreateOperations_spec repo ctx fuel)
            p q st l st' hmiss N hN hgs h2
        refine ⟨by rw [hlform]; simp only [List.length_cons, List.length_range'],
          List.range' base N, hlform, List.length_range' .., ?_, ?_, ?_, ?_, ?_⟩
        · exact congrArg (fun t => t.2.2.2) hcr
        · exact congrArg (fun t => t.2.2.1) hcr
        · exact congrArg (fun t => t.2.2.2) hcsv
        · exact congrArg (fun t => t.2.2.1) hcsv
        · intro j hj
          rw [range'_getD N base j hj, hshard j hj]

/-- Witness for C5: the sharded resolution over `shardedRepo` (shard count 2)
yields 2 + 2 operations. -/
theorem resolved_list_cardinality_witness :
    shardResolve.1.length = 2 + 2 :=
  ((resolved_list_cardinality shardedRepo outOfScopeCtx 5 0 0 emptyState
    shardResolve.1 shardResolve.2 (by decide) rfl).2 2 (by decide) (by decide)).1

/-- C2: after the dirty-propagation loop terminates, the work-tracking set
equals the forward transitive closure of its initial contents under the
consumer relation: an operation is in the final set iff it is reachable (in
zero or more consumer steps) from an initially marked operation; moreover
the final membership does not depend on the order of the initial listing. -/
theorem propagate_closure (ops : List Op) (init : List Nat)
    (hcons : ∀ i, i < ops.length → ∀ j ∈ consumersOf ops i, j < ops.length)
    (hnd : init.Nodup) :
    (∀ x, x ∈ propagate ops init ↔
      ∃ i0 ∈ init, Relation.ReflTransGen (consEdge ops) i0 x) ∧
    (∀ init', init'.Nodup → (∀ x, x ∈ init' ↔ x ∈ init) →
      ∀ x, x ∈ propagate ops init' ↔ x ∈ propagate ops init) := by
  have main : ∀ (ini : List Nat), ini.Nodup →
      ∀ x, x ∈ propagate ops ini ↔
        ∃ i0 ∈ ini, Relation.ReflTransGen (consEdge ops) i0 x := by
    intro ini hndi
    have hfuel : ini.length + 2 * missingCount ops ini ≤
        ini.length + 2 * ops.length + 1 := by
      have hle : missingCount ops ini ≤ ops.length := by
        unfold missingCount
        calc (Finset.range ops.length \ ini.toFinset).card
            ≤ (Finset.range ops.length).card := Finset.card_le_card Finset.sdiff_subset
          _ = ops.length := Finset.card_range _
      omega
    obtain ⟨s1, s2, s3⟩ := propagateAux_spec ops hcons
      (ini.length + 2 * ops.length + 1) ini ini hfuel hndi (fun x hx => hx)
      (fun x hx => Or.inl hx)
    intro x
    constructor
    · intro hx
      exact s2 x hx
    · rintro ⟨i0, hi0, hrtg⟩
      induction hrtg with
      | refl => exact s1 i0 hi0
      | tail hab hbc ih => exact s3 _ ih _ hbc
  refine ⟨main init hnd, ?_⟩
  intro init' hnd' hmem x
  rw [main init hnd x, main init' hnd' x]
  constructor
  · rintro ⟨i0, h1, h2⟩
    exact ⟨i0, (hmem i0).mp h1, h2⟩
  · rintro ⟨i0, h1, h2⟩
    exact ⟨i0, (hmem i0).mpr h1, h2⟩

/-- Witness for C2: the consumer chain 0 → 1 → 2 with 0 initially marked. -/
theorem propagate_closure_witness :
    2 ∈ propagate chainOps [0] ↔
      ∃ i0 ∈ [0], Relation.ReflTransGen (consEdge chainOps) i0 2 :=
  (propagate_closure chainOps [0] (by decide) (by decide)).1 2

/-- The full pass over `soloRepo` with the out-of-scope context: its single
operation receives the skip runner at creation and is never marked with
work. -/
def soloSkipResult : BuildState :=
  (createOperations soloRepo outOfScopeCtx 5 [] []).getD emptyState

/-- C9: the operation set returned by construction is a superset of the
operation set passed in — every initially listed operation survives into the
returned set — and every operation created (memoized) during the pass is
added to it as well; nothing is ever removed. -/
theorem returned_set_superset (repo : Repo) (ctx : CreateContext) (fuel : Nat)
    (initialOps : List Op) (initialExisting : List Nat) (stF : BuildState)
    (h : createOperations repo ctx fuel initialOps initialExisting = some stF) :
    (∀ x ∈ initialExisting, x ∈ stF.existingOperations) ∧
    (∀ k l, memoLookup stF.allOperations k = some l →
      ∀ x ∈ l, x ∈ stF.existingOperations) := by
  obtain ⟨stR, hrun, hF⟩ :=
    createOperations_eq repo ctx fuel initialOps initialExisting stF h
  obtain ⟨hstep, _, hlisted, _⟩ := runPairs_spec repo ctx _
    (getOrCreateOperations_spec repo ctx fuel) _ _ _ hrun
  have hexF : stF.existingOperations = stR.existingOperations := by rw [hF]
  constructor
  · intro x hx
    rw [hexF]
    exact hstep.existMono x hx
  · intro k l hk x hx
    rw [hexF]
    have hkR : memoLookup stR.allOperations k = some l := by
      rw [hF] at hk
      exact hk
    exact hlisted (listedExisting_initial initialOps initialExisting) k l hkR x hx

/-- Witness for C9: an initially listed operation index survives the pass
over `soloRepo`. -/
theorem returned_set_superset_witness :
    7 ∈ ((createOperations soloRepo soloCtx 5 [] [7]).getD emptyState).existingOperations :=
  (returned_set_superset soloRepo soloCtx 5 [] [7]
    ((createOperations soloRepo soloCtx 5 [] [7]).getD emptyState) rfl).1 7 (by decide)

/-- Counterexample to C3: in the completed pass over `soloRepo` (a single
requested, in-scope, changed, unsharded pair), the operation created for the
pair is memoized and returned in the operation set, yet ends the pass with
its runner still unset — operations in the final work-tracking set are
exempted from finalization and nothing else ever attaches a runner to an
in-scope unsharded operation. -/
theorem workset_member_runner_unset :
    createOperations soloRepo soloCtx 5 [] [] = some soloResult ∧
    memoLookup soloResult.allOperations (keyOf soloRepo 0 0) = some [0] ∧
    0 ∈ soloResult.existingOperations ∧
    0 ∈ soloResult.operationsWithWork ∧
    runnerOf soloResult 0 = none :=
  ⟨rfl, by decide, by decide, by decide, by decide⟩

/-- C3 (amended): when construction returns, every operation created during
the pass that is NOT in the final work-tracking set has a non-null execution
strategy attached (the skip strategy); operations in the final work-tracking
set may keep an unset runner. -/
theorem non_work_ops_end_with_skip_runner (repo : Repo) (ctx : CreateContext)
    (fuel : Nat) (initialOps : List Op) (initialExisting : List Nat)
    (stF : BuildState)
    (h : createOperations repo ctx fuel initialOps initialExisting = some stF) :
    ∀ k l, memoLookup stF.allOperations k = some l →
      ∀ i ∈ l, i ∉ stF.operationsWithWork → IsSkipRunner (runnerOf stF i) := by
  obtain ⟨stR, hrun, hF⟩ :=
    createOperations_eq repo ctx fuel initialOps initialExisting stF h
  obtain ⟨hstep, hwf, _, _⟩ := runPairs_spec repo ctx _
    (getOrCreateOperations_spec repo ctx fuel) _ _ _ hrun
  have hwfR := hwf (stateWF_initial initialOps initialExisting)
  intro k l hk i hi hnw
  have hkR : memoLookup stR.allOperations k = some l := by
    rw [hF] at hk
    exact hk
  have hiR : i < stR.ops.length := hwfR.memoBound k l hkR i hi
  have hnwP : i ∉ propagate stR.ops stR.operationsWithWork := by
    rw [hF] at hnw
    exact hnw
  have hskip := finalizeOps_assigns (propagate stR.ops stR.operationsWithWork)
    stR.allOperations stR.ops k l i (mem_of_memoLookup hkR) hi hnwP hiR
  have hops : stF.ops = finalizeOps (propagate stR.ops stR.operationsWithWork)
      stR.allOperations stR.ops := by rw [hF]
  show IsSkipRunner (runnerOf stF i)
  unfold runnerOf opAt
  rw [hops]
  exact hskip

/-- Witness for C3 (amended): the out-of-scope pass over `soloRepo` leaves
its single (non-work) operation with a skip runner. -/
theorem non_work_ops_end_with_skip_runner_witness :
    IsSkipRunner (runnerOf soloSkipResult 0) :=
  non_work_ops_end_with_skip_runner soloRepo outOfScopeCtx 5 [] [] soloSkipResult rfl
    (keyOf soloRepo 0 0) [0] (by decide) 0 (by decide) (by decide)

/-- Counterexample to C1: over `shardedRepo` (external shard count 2) with
the pair outside the phase selection and the project marked changed, the
restore boundary operation created for the pair ends the pass carrying the
build-cache restore runner, whose fixed result is Success — not the skip
strategy: the sharded branch never consults the phase/project selection. -/
theorem sharded_out_of_scope_not_skipped :
    createOperations shardedRepo outOfScopeCtx 5 [] [] = some shardedResult ∧
    (0 ∉ outOfScopeCtx.phaseSelection ∨ 0 ∉ outOfScopeCtx.projectSelection) ∧
    0 ∈ outOfScopeCtx.changedProjects ∧
    memoLookup shardedResult.allOperations (keyOf shardedRepo 0 0) =
      some [0, 1, 2, 3] ∧
    runnerOf shardedResult 0 = some buildCacheRestoreRunner ∧
    buildCacheRestoreRunner.result = OperationStatus.Success ∧
    ¬ IsSkipRunner (runnerOf shardedResult 0) := by
  have hr : runnerOf shardedResult 0 = some buildCacheRestoreRunner := by decide
  refine ⟨rfl, by decide, by decide, by decide, hr, rfl, ?_⟩
  rintro ⟨nm, hnm⟩
  rw [hr] at hnm
  injection hnm with h2
  have h3 := congrArg IOperationRunner.result h2
  simp [buildCacheRestoreRunner, nullOperationRunner] at h3

/-- C1 (amended): for every unsharded (phase, project) pair memoized during
one construction pass whose pair is outside the requested phase selection or
project selection, the single operation created for that pair ends the pass
with the skip strategy (the null runner named by the pair's key, with fixed
result Skipped), regardless of whether the project is possibly changed. -/
theorem out_of_scope_unsharded_ends_skipped (repo : Repo) (ctx : CreateContext)
    (fuel : Nat) (initialOps : List Op) (initialExisting : List Nat)
    (stF : BuildState) (hg : GoodInputs repo ctx)
    (hpr : ∀ p ∈ ctx.phaseOriginal, p < repo.phases.length)
    (hqr : ∀ q ∈ ctx.projectSelection, q < repo.projects.length)
    (p q : Nat) (hp : p < repo.phases.length) (hq : q < repo.projects.length)
    (hunsh : isSharded (getShards repo p q) = false)
    (hout : p ∉ ctx.phaseSelection ∨ q ∉ ctx.projectSelection)
    (h : createOperations repo ctx fuel initialOps initialExisting = some stF)
    (l : List Nat) (hk : memoLookup stF.allOperations (keyOf repo p q) = some l) :
    ∃ i, l = [i] ∧
      runnerOf stF i =
        some (nullOperationRunner (keyOf repo p q) OperationStatus.Skipped true) := by
  obtain ⟨stR, hrun, hF⟩ :=
    createOperations_eq repo ctx fuel initialOps initialExisting stF h
  obtain ⟨hstep, hwf, _, hinv⟩ := runPairs_spec repo ctx _
    (getOrCreateOperations_spec repo ctx fuel) _ _ _ hrun
  have hwfR := hwf (stateWF_initial initialOps initialExisting)
  have hinvR := hinv hg (pairs_in_range repo ctx hpr hqr)
    (stateWF_initial initialOps initialExisting)
    (entryInv_initial repo ctx initialOps initialExisting)
  have hkR : memoLookup stR.allOperations (keyOf repo p q) = some l := by
    rw [hF] at hk
    exact hk
  obtain ⟨i, hl, hib, hrun0⟩ := hinvR p q hp hq hunsh hout l hkR
  refine ⟨i, hl, ?_⟩
  have hil : i ∈ l := by
    rw [hl]
    exact List.mem_singleton_self i
  have hops : stF.ops = finalizeOps (propagate stR.ops stR.operationsWithWork)
      stR.allOperations stR.ops := by rw [hF]
  show runnerOf stF i = _
  unfold runnerOf opAt
  rw [hops]
  apply finalizeOps_value_stable
  · exact hrun0
  · intro kl hkl hikl
    by_contra hne
    have hlkl : memoLookup stR.allOperations kl.1 = some kl.2 :=
      memoLookup_of_mem_nodup hwfR.nodupKeys hkl
    exact hwfR.memoDisj (keyOf repo p q) kl.1 l kl.2
      (fun he => hne he.symm) hkR hlkl i hil hikl

/-- Witness for C1 (amended): the out-of-scope unsharded pair of `soloRepo`
ends the pass with the skip runner named by its key. -/
theorem out_of_scope_unsharded_ends_skipped_witness :
    ∃ i, ([0] : List Nat) = [i] ∧
      runnerOf soloSkipResult i =
        some (nullOperationRunner (keyOf soloRepo 0 0) OperationStatus.Skipped true) :=
  out_of_scope_unsharded_ends_skipped soloRepo outOfScopeCtx 5 [] [] soloSkipResult
    ⟨fun p hp p' hp' q hq q' hq' _ => by
        have h1 : p < 1 := hp
        have h2 : p' < 1 := hp'
        have h3 : q < 1 := hq
        have h4 : q' < 1 := hq'
        omega,
      by decide, by decide⟩ (by decide) (by decide) 0 0 (by decide)
    (by decide) (by decide) (by decide) rfl [0] (by decide)

/-- C10: an unsharded out-of-scope operation keeps the Skipped strategy
assigned at its creation through the end of the pass even when dirty
propagation later adds it to the work-tracking set: membership in the final
work-tracking set exempts the operation from the finalization reassignment
(its record is left untouched), and nothing after creation replaces its
runner, so its final strategy still reports Skipped. -/
theorem out_of_scope_runner_survives_work_marking (repo : Repo)
    (ctx : CreateContext) (fuel : Nat) (initialOps : List Op)
    (initialExisting : List Nat) (stF : BuildState) (hg : GoodInputs repo ctx)
    (hpr : ∀ p ∈ ctx.phaseOriginal, p < repo.phases.length)
    (hqr : ∀ q ∈ ctx.projectSelection, q < repo.projects.length)
    (p q : Nat) (hp : p < repo.phases.length) (hq : q < repo.projects.length)
    (hunsh : isSharded (getShards repo p q) = false)
    (hout : p ∉ ctx.phaseSelection ∨ q ∉ ctx.projectSelection)
    (h : createOperations repo ctx fuel initialOps initialExisting = some stF)
    (l : List Nat) (hk : memoLookup stF.allOperations (keyOf repo p q) = some l)
    (hwork : ∀ x ∈ l, x ∈ stF.operationsWithWork) :
    ∃ i, l = [i] ∧ i ∈ stF.operationsWithWork ∧
      runnerOf stF i =
        some (nullOperationRunner (keyOf repo p q) OperationStatus.Skipped true) := by
  obtain ⟨stR, hrun, hF⟩ :=
    createOperations_eq repo ctx fuel initialOps initialExisting stF h
  obtain ⟨hstep, hwf, _, hinv⟩ := runPairs_spec repo ctx _
    (getOrCreateOperations_spec repo ctx fuel) _ _ _ hrun
  have hinvR := hinv hg (pairs_in_range repo ctx hpr hqr)
    (stateWF_initial initialOps initialExisting)
    (entryInv_initial repo ctx initialOps initialExisting)
  have hkR : memoLookup stR.allOperations (keyOf repo p q) = some l := by
    rw [hF] at hk
    exact hk
  obtain ⟨i, hl, hib, hrun0⟩ := hinvR p q hp hq hunsh hout l hkR
  have hiw : i ∈ stF.operationsWithWork := by
    refine hwork i ?_
    rw [hl]
    exact List.mem_singleton_self i
  refine ⟨i, hl, hiw, ?_⟩
  have hiwP : i ∈ propagate stR.ops stR.operationsWithWork := by
    rw [hF] at hiw
    exact hiw
  have hops : stF.ops = finalizeOps (propagate stR.ops stR.operationsWithWork)
      stR.allOperations stR.ops := by rw [hF]
  show runnerOf stF i = _
  unfold runnerOf opAt
  rw [hops, finalizeOps_getD_work (propagate stR.ops stR.operationsWithWork)
    stR.allOperations stR.ops i hiwP]
  exact hrun0

/-- Witness for C10: over `scopeChainRepo`, the out-of-scope phase-1
operation consumes the changed phase-0 operation, lands in the final
work-tracking set, and still reports the skip runner assigned at creation. -/
theorem out_of_scope_runner_survives_work_marking_witness :
    ∃ i, ([0] : List Nat) = [i] ∧ i ∈ scopeChainResult.operationsWithWork ∧
      runnerOf scopeChainResult i =
        some (nullOperationRunner (keyOf scopeChainRepo 1 0)
          OperationStatus.Skipped true) :=
  out_of_scope_runner_survives_work_marking scopeChainRepo scopeChainCtx 5 [] []
    scopeChainResult
    ⟨by
        intro p hp p' hp' q hq q' hq' he
        have h1 : p < 2 := hp
        have h2 : p' < 2 := hp'
        have h3 : q < 1 := hq
        have h4 : q' < 1 := hq'
        interval_cases p <;> interval_cases p' <;> interval_cases q <;>
          interval_cases q' <;>
          first
            | exact ⟨rfl, rfl⟩
            | exact absurd he (by decide),
      by decide, by decide⟩ (by decide) (by decide) 1 0
    (by decide) (by decide) (by decide) (by decide) rfl [0] (by decide) (by decide)

/-- C6: for a sharded (phase, project) pair with shard count N > 1, resolved
on a memo miss: every operation resolved from a self-dependency phase becomes
a dependency of the restore node and of no other node of the pair, every
operation resolved from an upstream-dependency phase of a directly
depended-on project becomes a dependency of the save node and of no other
node of the pair, each of the N shard operations depends on exactly the
restore node, and the save node depends on each of the N shard operations.
The pair itself must not appear among its own recursion targets (the
TypeScript would not terminate otherwise). -/
theorem sharded_wiring_topology (repo : Repo) (ctx : CreateContext) (fuel : Nat)
    (p q : Nat) (st : BuildState) (l : List Nat) (st' : BuildState)
    (hg : GoodInputs repo ctx) (hp : p < repo.phases.length)
    (hq : q < repo.projects.length) (hwf : StateWF st)
    (hmiss : memoLookup st.allOperations (keyOf repo p q) = none)
    (N : Nat) (hN : 1 < N) (hs : getShards repo p q = some N)
    (hself : p ∉ (repo.phase p).selfDeps)
    (hproj : q ∉ (repo.project q).dependencyProjects)
    (h : getOrCreateOperations repo ctx fuel p q st = some (l, st')) :
    ∃ base, st.ops.length + 2 ≤ base ∧
      l = st.ops.length :: (st.ops.length + 1) :: List.range' base N ∧
      (∀ j, j < N → depsOf st' (base + j) = [st.ops.length]) ∧
      (∀ j, j < N → base + j ∈ depsOf st' (st.ops.length + 1)) ∧
      (∀ pq ∈ selfPairs repo p q, ∃ ld,
        memoLookup st'.allOperations (keyOf repo pq.1 pq.2) = some ld ∧
        ∀ x ∈ ld, x ∈ depsOf st' st.ops.length ∧
          x ∉ depsOf st' (st.ops.length + 1) ∧
          ∀ j, j < N → x ∉ depsOf st' (base + j)) ∧
      (∀ pq ∈ upstreamPairs repo p q, ∃ ld,
        memoLookup st'.allOperations (keyOf repo pq.1 pq.2) = some ld ∧
        ∀ x ∈ ld, x ∈ depsOf st' (st.ops.length + 1) ∧
          x ∉ depsOf st' st.ops.length ∧
          ∀ j, j < N → x ∉ depsOf st' (base + j)) := by
  cases fuel with
  | zero => simp [getOrCreateOperations] at h
  | succ fuel =>
      simp only [getOrCreateOperations] at h
      rw [hmiss] at h
      rw [hs] at h
      have h2 : (if N > 1 then
          shardedExpand (getOrCreateOperations repo ctx fuel) repo p q
            (keyOf repo p q) N st
        else
          unshardedExpand (getOrCreateOperations repo ctx fuel) repo ctx p q
            (keyOf repo p q) st) = some (l, st') := h
      rw [if_pos hN] at h2
      obtain ⟨hstep, hmemo2, hdepsold, hwf2, hle2, hinv2, base, hble, hlform, hcr,
        hcsv, hshardrec, hbound, hner, hselfc, hupc, hrange⟩ :=
        shardedExpand_spec repo ctx _ (getOrCreateOperations_spec repo ctx fuel)
          p q st l st' hmiss N hN hs h2
      have hwfS := hwf2 hwf
      have hks : ∀ pq ∈ selfPairs repo p q,
          keyOf repo pq.1 pq.2 ≠ keyOf repo p q := by
        intro pq hpq hke
        obtain ⟨dp, hdp, hpq2⟩ := List.mem_map.mp hpq
        rw [← hpq2] at hke
        have h1 : dp < repo.phases.length := (hg.phasesWF p hp).1 dp hdp
        obtain ⟨he1, _⟩ := hg.keyInj dp h1 p hp q hq q hq hke
        rw [he1] at hdp
        exact hself hdp
      have hku : ∀ pq ∈ upstreamPairs repo p q,
          keyOf repo pq.1 pq.2 ≠ keyOf repo p q := by
        intro pq hpq hke
        obtain ⟨dp, hdp, hmem⟩ := List.mem_flatMap.mp hpq
        obtain ⟨dq, hdq, hpq2⟩ := List.mem_map.mp hmem
        rw [← hpq2] at hke
        have h1 : dp < repo.phases.length := (hg.phasesWF p hp).2 dp hdp
        have h3 : dq < repo.projects.length := hg.projectsWF q hq dq hdq
        obtain ⟨_, he2⟩ := hg.keyInj dp h1 p hp dq h3 q hq hke
        rw [he2] at hdq
        exact hproj hdq
      have hkSU : ∀ pqS ∈ selfPairs repo p q, ∀ pqU ∈ upstreamPairs repo p q,
          keyOf repo pqS.1 pqS.2 ≠ keyOf repo pqU.1 pqU.2 := by
        intro pqS hpqS pqU hpqU hke
        obtain ⟨dpS, hdpS, hpq2S⟩ := List.mem_map.mp hpqS
        obtain ⟨dpU, hdpU, hmemU⟩ := List.mem_flatMap.mp hpqU
        obtain ⟨dqU, hdqU, hpq2U⟩ := List.mem_map.mp hmemU
        rw [← hpq2S, ← hpq2U] at hke
        have h1 : dpS < repo.phases.length := (hg.phasesWF p hp).1 dpS hdpS
        have h2b : dpU < repo.phases.length := (hg.phasesWF p hp).2 dpU hdpU
        have h3 : dqU < repo.projects.length := hg.projectsWF q hq dqU hdqU
        obtain ⟨_, he2⟩ := hg.keyInj dpS h1 dpU h2b q hq dqU h3 hke
        rw [← he2] at hdqU
        exact hproj hdqU
      obtain ⟨hself1, hself2⟩ := hselfc hks
      obtain ⟨hup1, hup2⟩ := hupc hku
      have hsharddeps : ∀ j, j < N → depsOf st' (base + j) = [st.ops.length] := by
        intro j hj
        unfold depsOf
        rw [hshardrec j hj]
      refine ⟨base, hble, hlform, hsharddeps, ?_, ?_, ?_⟩
      · intro j hj
        refine hrange (base + j) ?_
        rw [List.mem_range'_1]
        omega
      · intro pq hpq
        obtain ⟨ld, hld, hsub⟩ := hself1 pq hpq
        refine ⟨ld, hld, ?_⟩
        intro x hx
        have hxner := hner hwf _ ld (hks pq hpq) hld x hx
        have hxlt : x < base := hbound hwf _ ld (hks pq hpq) hld x hx
        refine ⟨hsub x hx, ?_, ?_⟩
        · intro hxS
          rcases hup2 x hxS with ⟨pqU, hpqU, ldU, hldU, hxU⟩ | hxRange
          · exact hwfS.memoDisj _ _ ld ldU (hkSU pq hpq pqU hpqU) hld hldU x hx hxU
          · rw [List.mem_range'_1] at hxRange
            omega
        · intro j hj hxj
          rw [hsharddeps j hj] at hxj
          exact hxner.1 (List.mem_singleton.mp hxj)
      · intro pq hpq
        obtain ⟨ld, hld, hsub⟩ := hup1 pq hpq
        refine ⟨ld, hld, ?_⟩
        intro x hx
        have hxner := hner hwf _ ld (hku pq hpq) hld x hx
        refine ⟨hsub x hx, ?_, ?_⟩
        · intro hxR
          obtain ⟨pqS, hpqS, ldS, hldS, hxS⟩ := hself2 x hxR
          exact hwfS.memoDisj _ _ ldS ld (hkSU pqS hpqS pq hpq) hldS hld x hxS hx
        · intro j hj hxj
          rw [hsharddeps j hj] at hxj
          exact hxner.1 (List.mem_singleton.mp hxj)

/-- Witness for C6: the sharded resolution over `shardedRepo` (shard count
2, no recursion targets). -/
theorem sharded_wiring_topology_witness :
    ∃ base, 2 ≤ base ∧
      shardResolve.1 = 0 :: 1 :: List.range' base 2 ∧
      (∀ j, j < 2 → depsOf shardResolve.2 (base + j) = [0]) ∧
      (∀ j, j < 2 → base + j ∈ depsOf shardResolve.2 1) ∧
      (∀ pq ∈ selfPairs shardedRepo 0 0, ∃ ld,
        memoLookup shardResolve.2.allOperations
          (keyOf shardedRepo pq.1 pq.2) = some ld ∧
        ∀ x ∈ ld, x ∈ depsOf shardResolve.2 0 ∧ x ∉ depsOf shardResolve.2 1 ∧
          ∀ j, j < 2 → x ∉ depsOf shardResolve.2 (base + j)) ∧
      (∀ pq ∈ upstreamPairs shardedRepo 0 0, ∃ ld,
        memoLookup shardResolve.2.allOperations
          (keyOf shardedRepo pq.1 pq.2) = some ld ∧
        ∀ x ∈ ld, x ∈ depsOf shardResolve.2 1 ∧ x ∉ depsOf shardResolve.2 0 ∧
          ∀ j, j < 2 → x ∉ depsOf shardResolve.2 (base + j)) :=
  sharded_wiring_topology shardedRepo outOfScopeCtx 5 0 0 emptyState
    shardResolve.1 shardResolve.2
    ⟨fun p hp p' hp' q hq q' hq' _ => by
        have h1 : p < 1 := hp
        have h2 : p' < 1 := hp'
        have h3 : q < 1 := hq
        have h4 : q' < 1 := hq'
        omega,
      by decide, by decide⟩
    (by decide) (by decide) (stateWF_initial [] []) (by decide) 2 (by decide)
    (by decide) (by decide) (by decide) rfl
